import Mathlib

/-!
Verification of the oral-facial analysis pipeline
(`pipeline/oralfacial_analysis.py`).

This file gives a shallow embedding, over `ℚ`, of the array manipulations
performed by the `make` methods of `JawTuning`, `WhiskerTuning`, `GLMFit`,
`GLMFitNoLick`, `GLMFitCAE` and `MovementTiming`, and proves or refutes the
specification claims about them.

Conventions of the embedding:
* numpy float arrays become `List ℚ`; 2-d arrays become `List (List ℚ)`;
  machine floats are modelled exactly by rationals.
* calls into external libraries (statsmodels GLM fitting and prediction,
  `np.random.choice`, `scipy.stats.mannwhitneyu`,
  `helper_functions.compute_phase_tuning`) are parameters ("oracles") of the
  embedded computations; the embedded code is exactly the data flow of the
  source around those calls.
* a numpy operation that raises (IndexError on fancy indexing, unbound local
  name) is modelled with `Option`: `none` means the Python code raised at
  that point.
-/

/-- Python `int()` / `ndarray.astype(int)`: truncation toward zero. -/
def pyTrunc (q : ℚ) : ℤ := if 0 ≤ q then ⌊q⌋ else -⌊-q⌋

/-- np.min of a 1-d array (0 for the empty array, unused case). -/
def npMin : List ℚ → ℚ
  | [] => 0
  | a :: t => t.foldl min a

/-- np.max of a 1-d array (0 for the empty array, unused case). -/
def npMax : List ℚ → ℚ
  | [] => 0
  | a :: t => t.foldl max a

/-- np.mean of a 1-d array. -/
def npMean (l : List ℚ) : ℚ := l.sum / l.length

/-- sum of squares, the `sum(map(lambda x: np.power(x,2), v))` idiom of the
source. -/
def sumSq (l : List ℚ) : ℚ := (l.map (fun x => x ^ 2)).sum

/-- np.roll for a 1-d array: `(npRoll k l)[i] = l[(i - k) mod n]`. -/
def npRoll (k : ℤ) (l : List α) : List α :=
  if l.length = 0 then l else l.rotate ((-k) % (l.length : ℤ)).toNat

/-- np.diff of a 1-d float array. -/
def npDiff : List ℚ → List ℚ
  | a :: b :: t => (b - a) :: npDiff (b :: t)
  | _ => []

/-- np.diff of a 1-d integer (index) array, values in `ℤ` as in numpy. -/
def npDiffZ : List ℕ → List ℤ
  | a :: b :: t => ((b : ℤ) - a) :: npDiffZ (b :: t)
  | _ => []

/-- np.argwhere(cond)[:,0] for a 1-d boolean array: the indices at which the
condition holds, in increasing order. -/
def argwhere (cond : List Bool) : List ℕ :=
  (List.range cond.length).filter (fun j => cond.getD j false)

/-- np.reshape of a flat array into `h` rows of width `w`: row `i` is
`flat[i*w : (i+1)*w]`. -/
def npReshapeRows (w h : ℕ) (flat : List ℚ) : List (List ℚ) :=
  (List.range h).map (fun i => (flat.drop (i * w)).take w)

/-- helper for strided slicing: take the element once the skip counter hits 0,
then reset the counter to `k`. -/
def everyNthAux (k : ℕ) : ℕ → List α → List α
  | _, [] => []
  | 0, a :: t => a :: everyNthAux k k t
  | n + 1, _ :: t => everyNthAux k n t

/-- Python slice `l[::5]`: every fifth element, starting at the first. -/
def everyFifth (l : List α) : List α := everyNthAux 4 0 l

/-- np.setdiff1d: the unique sorted values of `a` that are not in `b`. -/
def np_setdiff1d (a b : List ℤ) : List ℤ :=
  ((List.insertionSort (· ≤ ·) a).dedup).filter (fun x => decide (x ∉ b))

/-- np.median of a list of natural numbers (trace lengths): middle element of
the sorted list, or the average of the two middle elements. -/
def npMedian (l : List ℕ) : ℚ :=
  let s := List.insertionSort (· ≤ ·) l
  if l.length = 0 then 0
  else if l.length % 2 = 1 then (s.getD (l.length / 2) 0 : ℚ)
  else ((s.getD (l.length / 2 - 1) 0 : ℚ) + (s.getD (l.length / 2) 0 : ℚ)) / 2

/-! ### Claim C6 — missing bad-video annotation defaults to trial 0

`JawTuning.make` lines 45–47 and `GLMFit.make` lines 270–280 fetch the
nullable `BadVideo` fields and substitute `np.array([0])` when the fetched
value is `None`; the lists are then used as a datajoint `-` (antijoin)
restriction on the trial set. -/

/-- lines 45–47 (and 271–278): one nullable fetched blob, defaulted to the
one-element array `[0]` when NULL. -/
def fetchBadTrialField (v : Option (List ℤ)) : List ℤ := v.getD [0]

/-- datajoint restriction `Table - [{'trial': tr} for tr in excl]`: the trials
surviving the antijoin. -/
def minusTrials (trials excl : List ℤ) : List ℤ :=
  trials.filter (fun t => decide (t ∉ excl))

/-- line 280: `bad_trials = np.concatenate((bad_trial_side[0], bad_trial_bot[0],
miss_trial_side[0], miss_trial_bot[0]))` after each field was defaulted. -/
def glmfit_bad_trials (s b ms mb : Option (List ℤ)) : List ℤ :=
  fetchBadTrialField s ++ fetchBadTrialField b ++
    fetchBadTrialField ms ++ fetchBadTrialField mb

/-- C6: when every bad-video annotation field is fetched as NULL the sentinel
`[0]` is substituted, and — because real trial identifiers are ≥ 1 — the
resulting exclusion removes nothing: the selected trial set equals the
unrestricted one, both for the single-field consumers (JawTuning) and for the
four-field consumer (GLMFit). -/
theorem badVideo_none_defaults_to_empty_exclusion
    (trials : List ℤ) (h : ∀ t ∈ trials, 1 ≤ t) :
    minusTrials trials (fetchBadTrialField none) = trials ∧
    minusTrials trials (glmfit_bad_trials none none none none) = trials := by
  constructor <;>
  · apply List.filter_eq_self.mpr
    intro t ht
    have h1 := h t ht
    simp only [fetchBadTrialField, glmfit_bad_trials, Option.getD_none, decide_eq_true_eq]
    simp only [List.mem_append, List.mem_singleton, fetchBadTrialField, Option.getD_none]
    omega

/-- C6 witness: the theorem applied to the concrete trial list `[1, 2, 7]`. -/
theorem badVideo_none_defaults_to_empty_exclusion_witness :
    (∀ t ∈ ([1, 2, 7] : List ℤ), 1 ≤ t) ∧
    (minusTrials [1, 2, 7] (fetchBadTrialField none) = [1, 2, 7] ∧
     minusTrials [1, 2, 7] (glmfit_bad_trials none none none none) = [1, 2, 7]) :=
  ⟨by decide, badVideo_none_defaults_to_empty_exclusion [1, 2, 7] (by decide)⟩

/-! ### Claim C5 — deterministic every-fifth-trial holdout

`GLMFit.make` lines 300–305: `test_t_o = trial_key_o[::5]` and
`trial_key = np.setdiff1d(trial_key_o, test_t_o)`; `GLMFitCAE.make`
lines 1090–1092 are identical.  `trial_key_o` is fetched with
`order_by='trial'`, so it is strictly sorted. -/

theorem everyNthAux_get? (k : ℕ) (l : List α) :
    ∀ c i, (everyNthAux k c l).get? i = l.get? (c + (k + 1) * i) := by
  induction l with
  | nil => intro c i; cases c <;> rfl
  | cons a t ih =>
    intro c i
    cases c with
    | zero =>
      cases i with
      | zero => rfl
      | succ j =>
        show (everyNthAux k k t).get? j = (a :: t).get? (0 + (k + 1) * (j + 1))
        rw [ih k j]
        have : 0 + (k + 1) * (j + 1) = (k + (k + 1) * j) + 1 := by ring
        rw [this, List.get?_cons_succ]
    | succ c' =>
      show (everyNthAux k c' t).get? i = (a :: t).get? (c' + 1 + (k + 1) * i)
      rw [ih c' i]
      have : c' + 1 + (k + 1) * i = (c' + (k + 1) * i) + 1 := by ring
      rw [this, List.get?_cons_succ]

theorem everyFifth_get? (l : List α) : ∀ i, (everyFifth l).get? i = l.get? (5 * i) := by
  intro i
  have := everyNthAux_get? 4 l 0 i
  simpa [everyFifth] using this

theorem everyNthAux_sublist (k : ℕ) (l : List α) :
    ∀ c, (everyNthAux k c l).Sublist l := by
  induction l with
  | nil => intro c; cases c <;> exact List.Sublist.refl []
  | cons a t ih =>
    intro c
    cases c with
    | zero => exact List.Sublist.cons₂ a (ih k)
    | succ c' => exact List.Sublist.cons a (ih c')

theorem everyFifth_sublist (l : List α) : (everyFifth l).Sublist l :=
  everyNthAux_sublist 4 l 0

/-- C5: for a strictly sorted trial list, the holdout of lines 300–305 puts
exactly the elements at positions 0, 5, 10, … into the test set, the train
set `np.setdiff1d(trial_key_o, test_t_o)` consists exactly of the remaining
trials, the two sets are disjoint and together cover the whole list.  (The
computation is a pure function of the list, hence deterministic.) -/
theorem glmfit_holdout_partition (l : List ℤ) (hs : List.Sorted (· < ·) l) :
    (∀ i, (everyFifth l).get? i = l.get? (5 * i)) ∧
    (∀ x, x ∈ np_setdiff1d l (everyFifth l) ↔ x ∈ l ∧ x ∉ everyFifth l) ∧
    (∀ x ∈ everyFifth l, x ∈ l) ∧
    (∀ x ∈ l, x ∈ everyFifth l ∨ x ∈ np_setdiff1d l (everyFifth l)) := by
  have hsorted : List.insertionSort (· ≤ ·) l = l := by
    apply List.Sorted.insertionSort_eq
    exact hs.le_of_lt
  have hnodup : l.Nodup := hs.nodup
  have hdedup : l.dedup = l := hnodup.dedup
  have hsd : np_setdiff1d l (everyFifth l) = l.filter (fun x => decide (x ∉ everyFifth l)) := by
    unfold np_setdiff1d
    rw [hsorted, hdedup]
  refine ⟨everyFifth_get? l, ?_, ?_, ?_⟩
  · intro x
    rw [hsd, List.mem_filter]
    simp
  · intro x hx
    exact (everyFifth_sublist l).mem hx
  · intro x hx
    by_cases hmem : x ∈ everyFifth l
    · exact Or.inl hmem
    · refine Or.inr ?_
      rw [hsd, List.mem_filter]
      simpa [hmem] using hx

/-- C5 witness: the theorem applied to the concrete strictly sorted trial list
`[1, 2, 3, 4, 5, 6, 7]` (so the test set is `[1, 6]` and the train set is
`[2, 3, 4, 5, 7]`). -/
theorem glmfit_holdout_partition_witness :
    List.Sorted (· < ·) ([1, 2, 3, 4, 5, 6, 7] : List ℤ) ∧
    everyFifth ([1, 2, 3, 4, 5, 6, 7] : List ℤ) = [1, 6] ∧
    np_setdiff1d [1, 2, 3, 4, 5, 6, 7] (everyFifth [1, 2, 3, 4, 5, 6, 7]) = [2, 3, 4, 5, 7] ∧
    ((∀ i, (everyFifth ([1, 2, 3, 4, 5, 6, 7] : List ℤ)).get? i = [1, 2, 3, 4, 5, 6, 7].get? (5 * i)) ∧
     (∀ x, x ∈ np_setdiff1d [1, 2, 3, 4, 5, 6, 7] (everyFifth [1, 2, 3, 4, 5, 6, 7]) ↔
        x ∈ ([1, 2, 3, 4, 5, 6, 7] : List ℤ) ∧ x ∉ everyFifth ([1, 2, 3, 4, 5, 6, 7] : List ℤ)) ∧
     (∀ x ∈ everyFifth ([1, 2, 3, 4, 5, 6, 7] : List ℤ), x ∈ ([1, 2, 3, 4, 5, 6, 7] : List ℤ)) ∧
     (∀ x ∈ ([1, 2, 3, 4, 5, 6, 7] : List ℤ), x ∈ everyFifth ([1, 2, 3, 4, 5, 6, 7] : List ℤ) ∨
        x ∈ np_setdiff1d [1, 2, 3, 4, 5, 6, 7] (everyFifth [1, 2, 3, 4, 5, 6, 7]))) :=
  ⟨by decide, by decide, by decide, glmfit_holdout_partition [1, 2, 3, 4, 5, 6, 7] (by decide)⟩

/-! ### Claim C2 — bad-video (non-multiple mot_svd length) handling

Each consumer of the `WhiskerSVD` motion-decomposition trace checks
`len(session_traces_w[0][:,0]) % num_frame != 0` with `num_frame = 1471`.
`WhiskerTuning.make` (lines 204–209), `GLMFit.make` (lines 458–463) and
`GLMFitNoLick.make` (lines 679–684) print `'Bad videos in bottom view'` and
`return`, inserting nothing.  In `MovementTiming.make` (lines 1584–1589) the
`return` is commented out: after printing, execution continues to line 1591,
which reads the local variable `num_trial_w` that is only assigned in the
`else` branch — so the session raises an unhandled `NameError` instead of
being skipped cleanly. -/

/-- outcome of the mot_svd length gate of one `make` method. -/
inductive WhiskerFetchOutcome where
  /-- the length check passed; computation continues with the reshaped
  (trials × 1471) motion matrix. -/
  | proceed (rows : List (List ℚ))
  /-- the diagnostic was printed and `make` returned without inserting. -/
  | skipReport
  /-- the diagnostic was printed, execution fell through to the use of the
  unassigned local `num_trial_w`, raising NameError. -/
  | nameErrorRaised
deriving DecidableEq

/-- WhiskerTuning.make lines 204–209. -/
def whiskerTuning_whiskerGate (mot : List ℚ) : WhiskerFetchOutcome :=
  if mot.length % 1471 ≠ 0 then .skipReport
  else .proceed (npReshapeRows 1471 (mot.length / 1471) mot)

/-- GLMFit.make lines 458–463. -/
def glmFit_whiskerGate (mot : List ℚ) : WhiskerFetchOutcome :=
  if mot.length % 1471 ≠ 0 then .skipReport
  else .proceed (npReshapeRows 1471 (mot.length / 1471) mot)

/-- GLMFitNoLick.make lines 679–684. -/
def glmFitNoLick_whiskerGate (mot : List ℚ) : WhiskerFetchOutcome :=
  if mot.length % 1471 ≠ 0 then .skipReport
  else .proceed (npReshapeRows 1471 (mot.length / 1471) mot)

/-- MovementTiming.make lines 1584–1589: the `return` of the bad branch is
commented out (line 1586), so control reaches line 1591 where `num_trial_w`
is unbound on this path. -/
def movementTiming_whiskerGate (mot : List ℚ) : WhiskerFetchOutcome :=
  if mot.length % 1471 ≠ 0 then .nameErrorRaised
  else .proceed (npReshapeRows 1471 (mot.length / 1471) mot)

/-- C2 (refuting the claim for MovementTiming): on a motion-decomposition
trace whose length (here 1) is not a multiple of 1471, WhiskerTuning, GLMFit
and GLMFitNoLick report and skip the session, but MovementTiming does not
abandon the computation at the check — it proceeds and raises an unhandled
NameError.  The general statement holds for every non-multiple length. -/
theorem movementTiming_badVideo_not_skipped :
    whiskerTuning_whiskerGate [0] = .skipReport ∧
    glmFit_whiskerGate [0] = .skipReport ∧
    glmFitNoLick_whiskerGate [0] = .skipReport ∧
    movementTiming_whiskerGate [0] = .nameErrorRaised ∧
    movementTiming_whiskerGate [0] ≠ .skipReport ∧
    (∀ mot : List ℚ, mot.length % 1471 ≠ 0 →
      movementTiming_whiskerGate mot = .nameErrorRaised) := by
  refine ⟨by decide, by decide, by decide, by decide, by decide, ?_⟩
  intro mot h
  simp [movementTiming_whiskerGate, h]

/-! ### Shifted-Poisson-GLM loops — claims C1 and C4

`GLMFit.make` lines 493–537 and `GLMFitNoLick.make` lines 734–772 fit, per
unit, one Poisson GLM per temporal shift τ ∈ np.arange(-5, 6), guarded by a
bare `try/except: pass`.  The statsmodels calls (`glm_poiss.fit()` and
`glm_result.predict(...)`) are modelled as oracles; everything else (the
result buffers, the circular shift, the pseudo-R² arithmetic, the assignment
order inside the `try` block, and the crucial aliasing `r2s_t = r2s` of
line 513/1128) is embedded directly. -/

/-- np.arange(-5, 6), the temporal shifts (lines 493, 734). -/
def taus : List ℤ := [-5, -4, -3, -2, -1, 0, 1, 2, 3, 4, 5]

/-- result of a successful `glm_poiss.fit()` call: the response residuals on
the training data and the fitted parameter vector. -/
structure GlmFitted where
  resid_response : List ℚ
  params : List ℚ
deriving DecidableEq

/-- outcomes of the external statsmodels calls for one τ of `GLMFit.make`:
`fit = none` means `glm_poiss.fit()` raised; `predictTest = none` means
`glm_result.predict(sm.add_constant(V_design_matrix_t))` raised. -/
structure GlmTauOracle where
  fit : Option GlmFitted
  predictTest : Option (List ℚ)

/-- lines 523–525: in-sample pseudo-R², `1 - SSE/SST` of the training
response residuals against the shifted counts `y_roll = np.roll(y, tau)`. -/
def glmfit_r2_in (y : List ℚ) (tau : ℤ) (f : GlmFitted) : ℚ :=
  let y_roll := npRoll tau y
  1 - sumSq f.resid_response / sumSq (y_roll.map (fun x => x - npMean y_roll))

/-- lines 528–530: held-out pseudo-R² of the predicted rates `p` against the
shifted test counts `y_roll_t = np.roll(y_t, tau)`. -/
def glmfit_r2_heldout (y_t : List ℚ) (tau : ℤ) (p : List ℚ) : ℚ :=
  let y_roll_t := npRoll tau y_t
  1 - sumSq (List.zipWith (fun a b => a - b) y_roll_t p) /
    sumSq (y_roll_t.map (fun x => x - npMean y_roll_t))

/-- mutable state of the per-unit loop of `GLMFit.make`, lines 512–515.
Line 513 reads `r2s_t = r2s`: it binds a second *name* to the same ndarray,
so there is a single buffer `r2buf` behind both `r2s` and `r2s_t`. -/
structure GlmFitState where
  r2buf : List ℚ
  weights_t : List (List ℚ)
  predict_ys : List (List ℚ)

/-- the `try` block of `GLMFit.make`, lines 521–535, for shift index `i`.
Statements of the block execute in order; the first raising call aborts the
rest of the block (caught by `except: pass`), keeping all assignments already
made.  Row assignments `predict_ys[i,:] = p` and `weights_t[i,:] = params`
raise (broadcast error) unless the lengths match, as does the subtraction
`y_roll_t - y_roll_t_p` of line 529. -/
def glmFitTry (y y_t : List ℚ) (o : GlmTauOracle) (i : ℕ) (tau : ℤ)
    (s : GlmFitState) : GlmFitState :=
  match o.fit with
  | none => s
  | some f =>
    -- line 525: r2s[i] = 1.0 - sse_val/sst_val
    let s1 : GlmFitState := { s with r2buf := s.r2buf.set i (glmfit_r2_in y tau f) }
    match o.predictTest with
    | none => s1
    | some p =>
      if p.length = (npRoll tau y_t).length then
        -- line 530: r2s_t[i] = ... — this writes into the shared buffer
        let s2 : GlmFitState := { s1 with r2buf := s1.r2buf.set i (glmfit_r2_heldout y_t tau p) }
        -- line 531: predict_ys[i,:] = y_roll_t_p
        let s3 : GlmFitState := { s2 with predict_ys := s2.predict_ys.set i p }
        -- line 532: weights_t[i,:] = glm_result.params
        if f.params.length = (s3.weights_t.getD i []).length then
          { s3 with weights_t := s3.weights_t.set i f.params }
        else s3
      else s1

/-- the per-unit record inserted by `GLMFit.make` (line 537). -/
structure GLMFitRecord where
  r2 : List ℚ
  r2_t : List ℚ
  weights : List (List ℚ)
  test_y : List ℚ
  predict_y : List (List ℚ)

/-- lines 512–537: the per-unit τ loop of `GLMFit.make`.  `r2s = np.zeros(11)`
and `r2s_t = r2s` share one buffer; the inserted record stores that single
buffer under both the `r2` and the `r2_t` key. -/
def glmFitUnitRecord (y y_t : List ℚ) (oracle : ℕ → GlmTauOracle) : GLMFitRecord :=
  let init : GlmFitState :=
    { r2buf := List.replicate 11 0
      weights_t := List.replicate 11 (List.replicate 9 0)
      predict_ys := List.replicate 11 (List.replicate y_t.length 0) }
  let fin := taus.enum.foldl (fun s p => glmFitTry y y_t (oracle p.1) p.1 p.2 s) init
  { r2 := fin.r2buf, r2_t := fin.r2buf, weights := fin.weights_t
    test_y := y_t, predict_y := fin.predict_ys }

/-- C1 (refuted): because of the alias `r2s_t = r2s` (line 513), the stored
`r2` and `r2_t` arrays are the same buffer for every input, and on a unit
whose fits succeed at every τ with in-sample pseudo-R² 1 and held-out
pseudo-R² −1, the record's `r2` array holds the held-out values −1 — the
in-sample values are overwritten, contradicting independent storage. -/
theorem glmfit_r2_alias_overwrites_insample :
    (∀ (y y_t : List ℚ) (orac : ℕ → GlmTauOracle),
      (glmFitUnitRecord y y_t orac).r2 = (glmFitUnitRecord y y_t orac).r2_t) ∧
    (let orac : ℕ → GlmTauOracle :=
      fun _ => ⟨some ⟨[0, 0], List.replicate 9 1⟩, some [2, 2]⟩
     let r := glmFitUnitRecord [2, 0] [0, 2] orac
     r.r2 = List.replicate 11 (-1) ∧
     glmfit_r2_in [2, 0] 0 ⟨[0, 0], List.replicate 9 1⟩ = 1 ∧
     r.r2.getD 5 0 ≠ glmfit_r2_in [2, 0] 0 ⟨[0, 0], List.replicate 9 1⟩) := by
  constructor
  · intro y y_t orac
    rfl
  · refine ⟨?_, ?_, ?_⟩
    · norm_num [glmFitUnitRecord, taus, List.enum, glmFitTry, glmfit_r2_in,
        glmfit_r2_heldout, npRoll, npMean, sumSq, List.rotate]
      decide
    · norm_num [glmfit_r2_in, npRoll, npMean, sumSq, List.rotate]
    · norm_num [glmFitUnitRecord, taus, List.enum, glmFitTry, glmfit_r2_in,
        glmfit_r2_heldout, npRoll, npMean, sumSq, List.rotate]

/-- outcomes of the external statsmodels calls for one τ of
`GLMFitNoLick.make`: `fit = none` means `glm_poiss.fit()` raised;
`predictTrain = none` means `glm_result.predict(sm.add_constant(V_design_matrix))`
raised. -/
structure GlmNoLickOracle where
  fit : Option GlmFitted
  predictTrain : Option (List ℚ)

/-- mutable state of the per-unit loop of `GLMFitNoLick.make`, lines 751–753
(`r2s`, `weights_t`, `predict_ys`; here there is no alias). -/
structure GlmNoLickState where
  r2s : List ℚ
  weights_t : List (List ℚ)
  predict_ys : List (List ℚ)

/-- lines 761–763: the in-sample pseudo-R² computed inside the `try` block of
`GLMFitNoLick.make` (identical arithmetic to `GLMFit.make`). -/
def nolick_r2 (y : List ℚ) (tau : ℤ) (f : GlmFitted) : ℚ :=
  let y_roll := npRoll tau y
  1 - sumSq f.resid_response / sumSq (y_roll.map (fun x => x - npMean y_roll))

/-- the `try` block of `GLMFitNoLick.make`, lines 758–772, for shift index
`i`: fit, then `r2s[i] = r2` (line 765), then predict, then
`predict_ys[i,:] = y_roll_t_p` (line 768), then `weights_t[i,:] = params`
(line 769); the first raising statement aborts the rest of the block and the
`except: pass` swallows the exception. -/
def glmNoLickTry (y : List ℚ) (o : GlmNoLickOracle) (i : ℕ) (tau : ℤ)
    (s : GlmNoLickState) : GlmNoLickState :=
  match o.fit with
  | none => s
  | some f =>
    let s1 : GlmNoLickState := { s with r2s := s.r2s.set i (nolick_r2 y tau f) }
    match o.predictTrain with
    | none => s1
    | some p =>
      if p.length = (s1.predict_ys.getD i []).length then
        let s2 : GlmNoLickState := { s1 with predict_ys := s1.predict_ys.set i p }
        if f.params.length = (s2.weights_t.getD i []).length then
          { s2 with weights_t := s2.weights_t.set i f.params }
        else s2
      else s1

/-- the per-unit record inserted by `GLMFitNoLick.make` (line 776). -/
structure GlmNoLickRecord where
  r2_nolick : List ℚ
  weights_nolick : List (List ℚ)
  y_nolick : List ℚ
  predict_y_nolick : List (List ℚ)

/-- lines 742–776: the per-unit τ loop of `GLMFitNoLick.make`. -/
def glmNoLickUnitRecord (y : List ℚ) (oracle : ℕ → GlmNoLickOracle) : GlmNoLickRecord :=
  let init : GlmNoLickState :=
    { r2s := List.replicate 11 0
      weights_t := List.replicate 11 (List.replicate 9 0)
      predict_ys := List.replicate 11 (List.replicate y.length 0) }
  let fin := taus.enum.foldl (fun s p => glmNoLickTry y (oracle p.1) p.1 p.2 s) init
  { r2_nolick := fin.r2s, weights_nolick := fin.weights_t
    y_nolick := y, predict_y_nolick := fin.predict_ys }

/-- lines 740–778: the loop over the session's units; each unit gets exactly
one record, whatever the fit outcomes. -/
def glmNoLickSession (ys : List (List ℚ)) (oracles : ℕ → ℕ → GlmNoLickOracle) :
    List GlmNoLickRecord :=
  ys.enum.map (fun p => glmNoLickUnitRecord p.2 (oracles p.1))

/-- value held by `r2s[j]` after the loop, as a function of the τ-`j` oracle. -/
def nolickSlotR2 (y : List ℚ) (tau : ℤ) (o : GlmNoLickOracle) : ℚ :=
  match o.fit with
  | none => 0
  | some f => nolick_r2 y tau f

/-- row held by `predict_ys[j]` after the loop. -/
def nolickSlotPredict (y : List ℚ) (o : GlmNoLickOracle) : List ℚ :=
  match o.fit, o.predictTrain with
  | some _, some p => if p.length = y.length then p else List.replicate y.length 0
  | _, _ => List.replicate y.length 0

/-- row held by `weights_t[j]` after the loop. -/
def nolickSlotWeights (y : List ℚ) (o : GlmNoLickOracle) : List ℚ :=
  match o.fit, o.predictTrain with
  | some f, some p =>
      if p.length = y.length ∧ f.params.length = 9 then f.params
      else List.replicate 9 0
  | _, _ => List.replicate 9 0

theorem glmNoLickTry_getD_ne (y : List ℚ) (o : GlmNoLickOracle) (i : ℕ) (tau : ℤ)
    (s : GlmNoLickState) (j : ℕ) (hij : i ≠ j) :
    (glmNoLickTry y o i tau s).r2s.getD j 0 = s.r2s.getD j 0 ∧
    (glmNoLickTry y o i tau s).weights_t.getD j [] = s.weights_t.getD j [] ∧
    (glmNoLickTry y o i tau s).predict_ys.getD j [] = s.predict_ys.getD j [] := by
  rcases o with ⟨_ | f, _ | p⟩ <;>
    simp only [glmNoLickTry] <;>
    (try split) <;> (try split) <;>
    simp [List.getD_eq_getElem?_getD, List.getElem?_set_ne hij]

theorem glmNoLickTry_length (y : List ℚ) (o : GlmNoLickOracle) (i : ℕ) (tau : ℤ)
    (s : GlmNoLickState) :
    (glmNoLickTry y o i tau s).r2s.length = s.r2s.length ∧
    (glmNoLickTry y o i tau s).weights_t.length = s.weights_t.length ∧
    (glmNoLickTry y o i tau s).predict_ys.length = s.predict_ys.length := by
  rcases o with ⟨_ | f, _ | p⟩ <;>
    simp only [glmNoLickTry] <;>
    (try split) <;> (try split) <;> simp

theorem glmNoLickTry_getD_self (y : List ℚ) (o : GlmNoLickOracle) (i : ℕ) (tau : ℤ)
    (s : GlmNoLickState) (hr : i < s.r2s.length) (hw : i < s.weights_t.length)
    (hp : i < s.predict_ys.length) :
    (glmNoLickTry y o i tau s).r2s.getD i 0 =
      (match o.fit with | none => s.r2s.getD i 0 | some f => nolick_r2 y tau f) ∧
    (glmNoLickTry y o i tau s).predict_ys.getD i [] =
      (match o.fit, o.predictTrain with
       | some _, some p =>
          if p.length = (s.predict_ys.getD i []).length then p else s.predict_ys.getD i []
       | _, _ => s.predict_ys.getD i []) ∧
    (glmNoLickTry y o i tau s).weights_t.getD i [] =
      (match o.fit, o.predictTrain with
       | some f, some p =>
          if p.length = (s.predict_ys.getD i []).length ∧
             f.params.length = (s.weights_t.getD i []).length then f.params
          else s.weights_t.getD i []
       | _, _ => s.weights_t.getD i []) := by
  rcases o with ⟨_ | f, _ | p⟩ <;> simp only [glmNoLickTry]
  · refine ⟨?_, ?_, ?_⟩ <;> first | rfl | trivial
  · refine ⟨?_, ?_, ?_⟩ <;> first | rfl | trivial
  · refine ⟨?_, ?_, ?_⟩ <;>
      simp [List.getD_eq_getElem?_getD, List.getElem?_set_self hr]
  · by_cases h1 : p.length = (s.predict_ys.getD i []).length
    · by_cases h2 : f.params.length = (s.weights_t.getD i []).length
      · simp only [h1, h2, if_pos, and_self, if_true]
        refine ⟨?_, ?_, ?_⟩ <;>
          simp [List.getD_eq_getElem?_getD, List.getElem?_set_self, hr, hw, hp]
      · simp only [h1, if_pos, h2, and_false, if_false]
        refine ⟨?_, ?_, ?_⟩ <;>
          simp [List.getD_eq_getElem?_getD, List.getElem?_set_self, hr, hw, hp]
    · simp only [h1, if_neg, not_false_iff, false_and, if_false]
      refine ⟨?_, ?_, ?_⟩ <;>
        simp [List.getD_eq_getElem?_getD, List.getElem?_set_self, hr, hw, hp, h1]

theorem glmNoLickFold_untouched (y : List ℚ) (oracle : ℕ → GlmNoLickOracle)
    (ts : List ℤ) : ∀ (start : ℕ) (s : GlmNoLickState) (j : ℕ), j < start →
    (((ts.enumFrom start).foldl
        (fun s p => glmNoLickTry y (oracle p.1) p.1 p.2 s) s).r2s.getD j 0 = s.r2s.getD j 0 ∧
     ((ts.enumFrom start).foldl
        (fun s p => glmNoLickTry y (oracle p.1) p.1 p.2 s) s).weights_t.getD j [] = s.weights_t.getD j [] ∧
     ((ts.enumFrom start).foldl
        (fun s p => glmNoLickTry y (oracle p.1) p.1 p.2 s) s).predict_ys.getD j [] = s.predict_ys.getD j []) := by
  induction ts with
  | nil => intro start s j hj; exact ⟨rfl, rfl, rfl⟩
  | cons t ts ih =>
    intro start s j hj
    have hne : start ≠ j := by omega
    have hstep := glmNoLickTry_getD_ne y (oracle start) start t s j hne
    have hrec := ih (start + 1) (glmNoLickTry y (oracle start) start t s) j (by omega)
    simp only [List.enumFrom, List.foldl_cons] at *
    exact ⟨hrec.1.trans hstep.1, hrec.2.1.trans hstep.2.1, hrec.2.2.trans hstep.2.2⟩

theorem glmNoLickFold_slot (y : List ℚ) (oracle : ℕ → GlmNoLickOracle)
    (ts : List ℤ) : ∀ (start : ℕ) (s : GlmNoLickState) (j : ℕ),
    start ≤ j → j < start + ts.length →
    j < s.r2s.length → j < s.weights_t.length → j < s.predict_ys.length →
    (((ts.enumFrom start).foldl
        (fun s p => glmNoLickTry y (oracle p.1) p.1 p.2 s) s).r2s.getD j 0 =
      (match (oracle j).fit with
       | none => s.r2s.getD j 0
       | some f => nolick_r2 y (ts.getD (j - start) 0) f) ∧
     ((ts.enumFrom start).foldl
        (fun s p => glmNoLickTry y (oracle p.1) p.1 p.2 s) s).predict_ys.getD j [] =
      (match (oracle j).fit, (oracle j).predictTrain with
       | some _, some p =>
          if p.length = (s.predict_ys.getD j []).length then p else s.predict_ys.getD j []
       | _, _ => s.predict_ys.getD j []) ∧
     ((ts.enumFrom start).foldl
        (fun s p => glmNoLickTry y (oracle p.1) p.1 p.2 s) s).weights_t.getD j [] =
      (match (oracle j).fit, (oracle j).predictTrain with
       | some f, some p =>
          if p.length = (s.predict_ys.getD j []).length ∧
             f.params.length = (s.weights_t.getD j []).length then f.params
          else s.weights_t.getD j []
       | _, _ => s.weights_t.getD j [])) := by
  induction ts with
  | nil =>
    intro start s j h1 h2 _ _ _
    simp only [List.length_nil, Nat.add_zero] at h2
    omega
  | cons t ts ih =>
    intro start s j h1 h2 hr hw hp
    simp only [List.enumFrom, List.foldl_cons]
    rcases Nat.eq_or_lt_of_le h1 with heq | hlt
    · -- j = start: the step at index `start` determines the slot, the rest of
      -- the fold leaves it untouched
      subst heq
      have hrest := glmNoLickFold_untouched y oracle ts (start + 1)
        (glmNoLickTry y (oracle start) start t s) start (by omega)
      have hself := glmNoLickTry_getD_self y (oracle start) start t s hr hw hp
      have hzero : (t :: ts).getD (start - start) 0 = t := by
        rw [Nat.sub_self]; rfl
      rw [hzero]
      exact ⟨hrest.1.trans hself.1, hrest.2.2.trans hself.2.1, hrest.2.1.trans hself.2.2⟩
    · -- j > start: the step at `start` does not touch slot j, recurse
      have hne : start ≠ j := by omega
      have hstep := glmNoLickTry_getD_ne y (oracle start) start t s j hne
      have hlen := glmNoLickTry_length y (oracle start) start t s
      have hrec := ih (start + 1) (glmNoLickTry y (oracle start) start t s) j
        (by omega) (by simp only [List.length_cons] at h2; omega)
        (by rw [hlen.1]; exact hr) (by rw [hlen.2.1]; exact hw) (by rw [hlen.2.2]; exact hp)
      have hidx : ts.getD (j - (start + 1)) 0 = (t :: ts).getD (j - start) 0 := by
        have : j - start = (j - (start + 1)) + 1 := by omega
        rw [this]; rfl
      rw [hstep.1, hstep.2.1, hstep.2.2, hidx] at hrec
      exact hrec

/-- C4 counterexample: a unit where `glm_poiss.fit()` succeeds at every τ
(residuals `[0,0]`, so in-sample pseudo-R² is 1) but the subsequent
`glm_result.predict` raises.  The claim says such a τ's slots "remain exactly
zero", yet the in-sample pseudo-R² slot — assigned at line 765 *before* the
prediction — holds 1, not 0. -/
theorem glmnolick_predict_failure_leaves_nonzero_r2 :
    (glmNoLickUnitRecord [2, 0]
        (fun _ => ⟨some ⟨[0, 0], List.replicate 9 1⟩, none⟩)).r2_nolick.getD 5 0 = 1 ∧
    (glmNoLickUnitRecord [2, 0]
        (fun _ => ⟨some ⟨[0, 0], List.replicate 9 1⟩, none⟩)).r2_nolick.getD 5 0 ≠ 0 := by
  constructor <;>
    norm_num [glmNoLickUnitRecord, taus, List.enum, glmNoLickTry, nolick_r2,
      npRoll, npMean, sumSq, List.rotate]

/-- C4 (amended): per-(unit, τ) failure isolation in `GLMFitNoLick.make`.
For every unit and shift index `j`: if the fit itself raises, slot `j` of
`r2s`, of `weights_t` and of `predict_ys` all keep their zero initial values;
if the fit succeeds, the `r2s` slot holds the computed in-sample pseudo-R²
even when the subsequent prediction raises (only the weight and
predicted-rate rows then stay zero); the exception never propagates, every
other shift is still processed (each slot depends only on its own τ's
outcome), and every unit of the session still yields a record. -/
theorem glmnolick_per_tau_failure_isolation (y : List ℚ)
    (oracle : ℕ → GlmNoLickOracle) (j : ℕ) (hj : j < 11) :
    ((glmNoLickUnitRecord y oracle).r2_nolick.getD j 0 =
        nolickSlotR2 y (taus.getD j 0) (oracle j) ∧
     (glmNoLickUnitRecord y oracle).predict_y_nolick.getD j [] =
        nolickSlotPredict y (oracle j) ∧
     (glmNoLickUnitRecord y oracle).weights_nolick.getD j [] =
        nolickSlotWeights y (oracle j)) ∧
    ((oracle j).fit = none →
      (glmNoLickUnitRecord y oracle).r2_nolick.getD j 0 = 0 ∧
      (glmNoLickUnitRecord y oracle).weights_nolick.getD j [] = List.replicate 9 0 ∧
      (glmNoLickUnitRecord y oracle).predict_y_nolick.getD j [] =
        List.replicate y.length 0) ∧
    (∀ (ys : List (List ℚ)) (oracles : ℕ → ℕ → GlmNoLickOracle),
      (glmNoLickSession ys oracles).length = ys.length) := by
  obtain ⟨hm1, hm2, hm3⟩ := glmNoLickFold_slot y oracle taus 0
    { r2s := List.replicate 11 0
      weights_t := List.replicate 11 (List.replicate 9 0)
      predict_ys := List.replicate 11 (List.replicate y.length 0) } j
    (Nat.zero_le j) (by simpa [taus] using hj)
    (by simpa using hj) (by simpa using hj) (by simpa using hj)
  have hm1' : (glmNoLickUnitRecord y oracle).r2_nolick.getD j 0 =
      (match (oracle j).fit with
       | none => (List.replicate 11 (0 : ℚ)).getD j 0
       | some f => nolick_r2 y (taus.getD (j - 0) 0) f) := hm1
  have hm2' : (glmNoLickUnitRecord y oracle).predict_y_nolick.getD j [] =
      (match (oracle j).fit, (oracle j).predictTrain with
       | some _, some p =>
          if p.length = ((List.replicate 11 (List.replicate y.length (0 : ℚ))).getD j []).length
          then p else (List.replicate 11 (List.replicate y.length (0 : ℚ))).getD j []
       | _, _ => (List.replicate 11 (List.replicate y.length (0 : ℚ))).getD j []) := hm2
  have hm3' : (glmNoLickUnitRecord y oracle).weights_nolick.getD j [] =
      (match (oracle j).fit, (oracle j).predictTrain with
       | some f, some p =>
          if p.length = ((List.replicate 11 (List.replicate y.length (0 : ℚ))).getD j []).length ∧
             f.params.length = ((List.replicate 11 (List.replicate 9 (0 : ℚ))).getD j []).length
          then f.params
          else (List.replicate 11 (List.replicate 9 (0 : ℚ))).getD j []
       | _, _ => (List.replicate 11 (List.replicate 9 (0 : ℚ))).getD j []) := hm3
  have hgetr : (List.replicate 11 (0 : ℚ)).getD j 0 = 0 := by
    rw [List.getD_eq_getElem?_getD, List.getElem?_replicate, if_pos hj]; rfl
  have hgetp : (List.replicate 11 (List.replicate y.length (0 : ℚ))).getD j [] =
      List.replicate y.length 0 := by
    rw [List.getD_eq_getElem?_getD, List.getElem?_replicate, if_pos hj]; rfl
  have hgetw : (List.replicate 11 (List.replicate 9 (0 : ℚ))).getD j [] =
      List.replicate 9 0 := by
    rw [List.getD_eq_getElem?_getD, List.getElem?_replicate, if_pos hj]; rfl
  have hx1 : (glmNoLickUnitRecord y oracle).r2_nolick.getD j 0 =
      nolickSlotR2 y (taus.getD j 0) (oracle j) := by
    rcases hf : (oracle j).fit with _ | f <;> simp only [hf] at hm1' <;> rw [hm1']
    · rw [hgetr]; simp [nolickSlotR2, hf]
    · simp [nolickSlotR2, hf]
  have hx2 : (glmNoLickUnitRecord y oracle).predict_y_nolick.getD j [] =
      nolickSlotPredict y (oracle j) := by
    rcases hf : (oracle j).fit with _ | f <;>
      rcases hpp : (oracle j).predictTrain with _ | p <;>
        simp only [hf, hpp] at hm2' <;> rw [hm2', hgetp]
    all_goals simp [nolickSlotPredict, hf, hpp]
  have hx3 : (glmNoLickUnitRecord y oracle).weights_nolick.getD j [] =
      nolickSlotWeights y (oracle j) := by
    rcases hf : (oracle j).fit with _ | f <;>
      rcases hpp : (oracle j).predictTrain with _ | p <;>
        simp only [hf, hpp] at hm3' <;> rw [hm3']
    all_goals try rw [hgetp]
    all_goals rw [hgetw]
    all_goals simp [nolickSlotWeights, hf, hpp]
  have hx : (glmNoLickUnitRecord y oracle).r2_nolick.getD j 0 =
        nolickSlotR2 y (taus.getD j 0) (oracle j) ∧
      (glmNoLickUnitRecord y oracle).predict_y_nolick.getD j [] =
        nolickSlotPredict y (oracle j) ∧
      (glmNoLickUnitRecord y oracle).weights_nolick.getD j [] =
        nolickSlotWeights y (oracle j) := ⟨hx1, hx2, hx3⟩
  refine ⟨hx, ?_, ?_⟩
  · intro hnone
    refine ⟨?_, ?_, ?_⟩
    · rw [hx.1]; simp [nolickSlotR2, hnone]
    · rw [hx.2.2]; simp only [nolickSlotWeights, hnone]
    · rw [hx.2.1]; simp only [nolickSlotPredict, hnone]
  · intro ys oracles
    simp [glmNoLickSession]

/-- C4 witness: the amended theorem applied at the concrete unit `y = [2,0]`,
an oracle whose fit raises at every τ, and shift index `j = 0`. -/
theorem glmnolick_per_tau_failure_isolation_witness :
    (0 : ℕ) < 11 ∧
    (((glmNoLickUnitRecord [2, 0] (fun _ => ⟨none, none⟩)).r2_nolick.getD 0 0 =
        nolickSlotR2 [2, 0] (taus.getD 0 0) ((fun _ => (⟨none, none⟩ : GlmNoLickOracle)) 0) ∧
      (glmNoLickUnitRecord [2, 0] (fun _ => ⟨none, none⟩)).predict_y_nolick.getD 0 [] =
        nolickSlotPredict [2, 0] ((fun _ => (⟨none, none⟩ : GlmNoLickOracle)) 0) ∧
      (glmNoLickUnitRecord [2, 0] (fun _ => ⟨none, none⟩)).weights_nolick.getD 0 [] =
        nolickSlotWeights [2, 0] ((fun _ => (⟨none, none⟩ : GlmNoLickOracle)) 0)) ∧
     (((fun _ => (⟨none, none⟩ : GlmNoLickOracle)) 0).fit = none →
      (glmNoLickUnitRecord [2, 0] (fun _ => ⟨none, none⟩)).r2_nolick.getD 0 0 = 0 ∧
      (glmNoLickUnitRecord [2, 0] (fun _ => ⟨none, none⟩)).weights_nolick.getD 0 [] =
        List.replicate 9 0 ∧
      (glmNoLickUnitRecord [2, 0] (fun _ => ⟨none, none⟩)).predict_y_nolick.getD 0 [] =
        List.replicate ([2, 0] : List ℚ).length 0) ∧
     (∀ (ys : List (List ℚ)) (oracles : ℕ → ℕ → GlmNoLickOracle),
      (glmNoLickSession ys oracles).length = ys.length)) :=
  ⟨by decide, glmnolick_per_tau_failure_isolation [2, 0] (fun _ => ⟨none, none⟩) 0 (by decide)⟩

/-! ### np.histogram and the phase-tuning curve — claim C3

`JawTuning.make` lines 86–90 (`BreathingTuning` lines 164–168 are identical
in structure):

    tofity, tofitx = np.histogram(all_phase, bins=n_bins)
    baseline, tofitx = np.histogram(phase_s, bins=n_bins)
    tofitx = tofitx[:-1] + (tofitx[1] - tofitx[0])/2
    tofity = tofity / baseline * float(fs)

Neither call passes a `range`, so np.histogram spans each histogram over the
min–max range of its *own* data. -/

/-- effective range of np.histogram(data, bins=n) with no explicit `range`
argument: (min, max) of the data, widened to (v − 1/2, v + 1/2) when
min = max, and (0, 1) for empty data (numpy's documented defaults). -/
def npHistRange (data : List ℚ) : ℚ × ℚ :=
  if data.isEmpty then (0, 1)
  else if npMin data = npMax data then (npMin data - 1/2, npMax data + 1/2)
  else (npMin data, npMax data)

/-- bin index assigned to sample `x` by np.histogram with `n` uniform bins
over [lo, hi]: ⌊n·(x−lo)/(hi−lo)⌋, clamped to n−1 so that x = hi falls in
the last (closed) bin. -/
def npBinIdx (lo hi : ℚ) (n : ℕ) (x : ℚ) : ℕ :=
  min (n - 1) (⌊(x - lo) / (hi - lo) * n⌋).toNat

/-- np.histogram(data, bins=n)[0]: the per-bin counts. -/
def npHistCounts (data : List ℚ) (n : ℕ) : List ℕ :=
  (List.range n).map (fun j =>
    (data.filter (fun x =>
      decide (npBinIdx (npHistRange data).1 (npHistRange data).2 n x = j))).length)

/-- j-th edge of `n` uniform bins over [lo, hi]. -/
def binEdge (lo hi : ℚ) (n : ℕ) (j : ℕ) : ℚ := lo + (hi - lo) * j / n

/-- np.histogram(data, bins=n)[1]: the n+1 uniform bin edges. -/
def npHistEdges (data : List ℚ) (n : ℕ) : List ℚ :=
  (List.range (n + 1)).map (fun j =>
    binEdge (npHistRange data).1 (npHistRange data).2 n j)

/-- lines 86–90 of `JawTuning.make`: the tuning curve (x, y).  `tofitx` is
rebound by the second histogram call, so the reported bin centres come from
the *baseline* histogram's edges; `tofity` divides the spike counts by the
baseline counts elementwise and multiplies by the sampling rate.  (A zero
baseline count yields inf/nan in numpy; the `ℚ` embedding yields 0 there,
so statements about `tofity` assume the baseline count positive.) -/
def jawTuningXY (all_phase phase_s : List ℚ) (fs : ℚ) : List ℚ × List ℚ :=
  let n_bins := 20
  let tofity0 := npHistCounts all_phase n_bins
  let baseline := npHistCounts phase_s n_bins
  let edges := npHistEdges phase_s n_bins
  let tofitx := edges.dropLast.map (fun e => e + (edges.getD 1 0 - edges.getD 0 0) / 2)
  let tofity := List.zipWith (fun (c b : ℕ) => (c : ℚ) / (b : ℚ) * fs) tofity0 baseline
  (tofitx, tofity)

theorem foldl_min_le_init (t : List ℚ) : ∀ c : ℚ, t.foldl min c ≤ c := by
  induction t with
  | nil => intro c; exact le_refl c
  | cons b t ih => intro c; exact (ih (min c b)).trans (min_le_left c b)

theorem npMin_le (data : List ℚ) : ∀ x ∈ data, npMin data ≤ x := by
  rcases data with _ | ⟨a, t⟩
  · intro x hx; cases hx
  · show ∀ x ∈ a :: t, t.foldl min a ≤ x
    induction t generalizing a with
    | nil =>
      intro x hx
      rcases List.mem_singleton.mp hx with rfl
      exact le_refl x
    | cons b t ih =>
      intro x hx
      rcases List.mem_cons.mp hx with rfl | hx'
      · exact (foldl_min_le_init t (min x b)).trans (min_le_left x b)
      rcases List.mem_cons.mp hx' with rfl | hx''
      · exact (foldl_min_le_init t (min a x)).trans (min_le_right a x)
      · exact ih (min a b) x (List.mem_cons_of_mem _ hx'')

theorem init_le_foldl_max (t : List ℚ) : ∀ c : ℚ, c ≤ t.foldl max c := by
  induction t with
  | nil => intro c; exact le_refl c
  | cons b t ih => intro c; exact (le_max_left c b).trans (ih (max c b))

theorem le_npMax (data : List ℚ) : ∀ x ∈ data, x ≤ npMax data := by
  rcases data with _ | ⟨a, t⟩
  · intro x hx; cases hx
  · show ∀ x ∈ a :: t, x ≤ t.foldl max a
    induction t generalizing a with
    | nil =>
      intro x hx
      rcases List.mem_singleton.mp hx with rfl
      exact le_refl x
    | cons b t ih =>
      intro x hx
      rcases List.mem_cons.mp hx with rfl | hx'
      · exact (le_max_left x b).trans (init_le_foldl_max t (max x b))
      rcases List.mem_cons.mp hx' with rfl | hx''
      · exact (le_max_right a x).trans (init_le_foldl_max t (max a x))
      · exact ih (max a b) x (List.mem_cons_of_mem _ hx'')

theorem npHistRange_lt (data : List ℚ) (hne : data ≠ []) :
    (npHistRange data).1 < (npHistRange data).2 := by
  unfold npHistRange
  rw [if_neg (by simpa using hne)]
  by_cases h : npMin data = npMax data
  · rw [if_pos h]; dsimp only; linarith [h.ge]
  · rw [if_neg h]; dsimp only
    rcases data with _ | ⟨a, t⟩
    · exact absurd rfl hne
    · exact lt_of_le_of_ne ((npMin_le _ a (List.mem_cons_self a t)).trans
        (le_npMax _ a (List.mem_cons_self a t))) h

theorem npHistRange_bounds (data : List ℚ) (x : ℚ) (hx : x ∈ data) :
    (npHistRange data).1 ≤ x ∧ x ≤ (npHistRange data).2 := by
  have h1 := npMin_le data x hx
  have h2 := le_npMax data x hx
  have hne' : data ≠ [] := by intro h; subst h; cases hx
  unfold npHistRange
  rw [if_neg (by simpa using hne')]
  by_cases h : npMin data = npMax data
  · rw [if_pos h]; exact ⟨by dsimp only; linarith, by dsimp only; linarith⟩
  · rw [if_neg h]; exact ⟨h1, h2⟩

theorem npBinIdx_eq_iff (lo hi : ℚ) (n : ℕ) (hn : 0 < n) (hlh : lo < hi)
    (x : ℚ) (hx1 : lo ≤ x) (hx2 : x ≤ hi) (j : ℕ) (hj : j < n) :
    npBinIdx lo hi n x = j ↔
      (binEdge lo hi n j ≤ x ∧
        (x < binEdge lo hi n (j + 1) ∨ (j = n - 1 ∧ x = hi))) := by
  have hsub : (0 : ℚ) < hi - lo := sub_pos.mpr hlh
  have hn' : (0 : ℚ) < n := by exact_mod_cast hn
  set t : ℚ := (x - lo) / (hi - lo) * n with ht
  have hts : t = (x - lo) * n / (hi - lo) := by rw [ht]; ring
  have ht0 : 0 ≤ t := by
    rw [hts]
    exact div_nonneg (mul_nonneg (by linarith) (by positivity)) (le_of_lt hsub)
  have hEdgeLe : ∀ m : ℕ, (binEdge lo hi n m ≤ x ↔ (m : ℚ) ≤ t) := by
    intro m
    rw [hts, le_div_iff hsub]
    unfold binEdge
    constructor <;> intro h
    · have h' : (hi - lo) * m / n ≤ x - lo := by linarith
      rw [div_le_iff hn'] at h'
      nlinarith
    · have h' : (hi - lo) * m / n ≤ x - lo := by
        rw [div_le_iff hn']
        nlinarith
      linarith
  have hEdgeLt : ∀ m : ℕ, (x < binEdge lo hi n m ↔ t < (m : ℚ)) := by
    intro m
    constructor <;> intro h
    · by_contra hc
      exact absurd ((hEdgeLe m).mpr (not_lt.mp hc)) (not_le.mpr h)
    · by_contra hc
      exact absurd ((hEdgeLe m).mp (not_lt.mp hc)) (not_le.mpr h)
  rcases eq_or_lt_of_le hx2 with hxe | hxlt
  · -- x = hi: the sample lands in the last bin
    have htn : t = (n : ℚ) := by
      rw [ht, hxe]
      field_simp
    have hidx : npBinIdx lo hi n x = n - 1 := by
      unfold npBinIdx
      rw [← ht, htn, Int.floor_natCast, Int.toNat_natCast]
      exact min_eq_left (Nat.sub_le n 1)
    rw [hidx]
    constructor
    · intro hjeq
      subst hjeq
      refine ⟨(hEdgeLe (n - 1)).mpr ?_, Or.inr ⟨rfl, hxe⟩⟩
      rw [htn]
      exact_mod_cast Nat.sub_le n 1
    · intro ⟨h1, h2⟩
      rcases h2 with h2 | ⟨hj', _⟩
      · exfalso
        have := (hEdgeLt (j + 1)).mp h2
        rw [htn] at this
        have : n < j + 1 := by exact_mod_cast this
        omega
      · exact hj'.symm
  · -- x < hi: the floor formula is not clamped
    have htlt : t < (n : ℚ) := by
      rw [hts, div_lt_iff hsub]
      nlinarith
    have hfl0 : 0 ≤ ⌊t⌋ := Int.floor_nonneg.mpr ht0
    have hfln : ⌊t⌋ < (n : ℤ) := by
      rw [Int.floor_lt]
      exact_mod_cast htlt
    have hidx : npBinIdx lo hi n x = (⌊t⌋).toNat := by
      unfold npBinIdx
      rw [← ht]
      exact min_eq_right (by omega)
    rw [hidx]
    constructor
    · intro hjeq
      have hflj : ⌊t⌋ = (j : ℤ) := by omega
      have hj1 : (j : ℚ) ≤ t := by
        have := Int.floor_le t
        rw [hflj] at this
        exact_mod_cast this
      have hj2 : t < (j : ℚ) + 1 := by
        have := Int.lt_floor_add_one t
        rw [hflj] at this
        exact_mod_cast this
      refine ⟨(hEdgeLe j).mpr hj1, Or.inl ((hEdgeLt (j + 1)).mpr ?_)⟩
      push_cast
      exact hj2
    · intro ⟨h1, h2⟩
      rcases h2 with h2 | ⟨_, hxeq⟩
      · have hj1 : (j : ℚ) ≤ t := (hEdgeLe j).mp h1
        have hj2 : t < (j : ℚ) + 1 := by
          have := (hEdgeLt (j + 1)).mp h2
          push_cast at this
          exact this
        have : ⌊t⌋ = (j : ℤ) := by
          rw [Int.floor_eq_iff]
          constructor
          · exact_mod_cast hj1
          · push_cast
            exact hj2
        omega
      · exact absurd hxeq (ne_of_lt hxlt)

theorem npHistCounts_length (data : List ℚ) (n : ℕ) : (npHistCounts data n).length = n := by
  simp [npHistCounts]

theorem npHistCounts_getD (data : List ℚ) (n : ℕ) (j : ℕ) (hj : j < n) :
    (npHistCounts data n).getD j 0 =
      (data.filter (fun x =>
        decide (npBinIdx (npHistRange data).1 (npHistRange data).2 n x = j))).length := by
  unfold npHistCounts
  rw [List.getD_eq_getElem?_getD, List.getElem?_map, List.getElem?_range hj]
  rfl

/-- counts of np.histogram, characterized by bin-interval membership: the
j-th count is the number of samples x with eⱼ ≤ x < eⱼ₊₁, the last bin
closed on the right. -/
theorem npHistCounts_interval (data : List ℚ) (n : ℕ) (hn : 0 < n)
    (hne : data ≠ []) (j : ℕ) (hj : j < n) :
    (npHistCounts data n).getD j 0 =
      (data.filter (fun x =>
        decide (binEdge (npHistRange data).1 (npHistRange data).2 n j ≤ x ∧
          (x < binEdge (npHistRange data).1 (npHistRange data).2 n (j + 1) ∨
           (j = n - 1 ∧ x = (npHistRange data).2))))).length := by
  rw [npHistCounts_getD data n j hj]
  congr 1
  apply List.filter_congr
  intro x hx
  have hb := npHistRange_bounds data x hx
  have hlt := npHistRange_lt data hne
  simp only [decide_eq_decide]
  exact npBinIdx_eq_iff _ _ n hn hlt x hb.1 hb.2 j hj

theorem npHistEdges_getD (data : List ℚ) (n : ℕ) (j : ℕ) (hj : j < n + 1) :
    (npHistEdges data n).getD j 0 =
      binEdge (npHistRange data).1 (npHistRange data).2 n j := by
  unfold npHistEdges
  rw [List.getD_eq_getElem?_getD, List.getElem?_map, List.getElem?_range hj]
  rfl

theorem jawTuningXY_y_getD (ap ps : List ℚ) (fs : ℚ) (j : ℕ) (hj : j < 20) :
    (jawTuningXY ap ps fs).2.getD j 0 =
      ((npHistCounts ap 20).getD j 0 : ℚ) / ((npHistCounts ps 20).getD j 0 : ℚ) * fs := by
  unfold jawTuningXY
  dsimp only
  have hlz : (List.zipWith (fun (c b : ℕ) => (c : ℚ) / (b : ℚ) * fs)
      (npHistCounts ap 20) (npHistCounts ps 20)).length = 20 := by
    rw [List.length_zipWith, npHistCounts_length, npHistCounts_length]
    rfl
  have h1 : j < (List.zipWith (fun (c b : ℕ) => (c : ℚ) / (b : ℚ) * fs)
      (npHistCounts ap 20) (npHistCounts ps 20)).length := by rw [hlz]; exact hj
  have ha : j < (npHistCounts ap 20).length := by rw [npHistCounts_length]; exact hj
  have hb : j < (npHistCounts ps 20).length := by rw [npHistCounts_length]; exact hj
  rw [List.getD_eq_getElem?_getD, List.getElem?_eq_getElem h1, Option.getD_some,
    List.getElem_zipWith,
    List.getD_eq_getElem?_getD, List.getElem?_eq_getElem ha, Option.getD_some,
    List.getD_eq_getElem?_getD, List.getElem?_eq_getElem hb, Option.getD_some]

theorem jawTuningXY_x_getD (ap ps : List ℚ) (fs : ℚ) (j : ℕ) (hj : j < 20) :
    (jawTuningXY ap ps fs).1.getD j 0 =
      (binEdge (npHistRange ps).1 (npHistRange ps).2 20 j +
       binEdge (npHistRange ps).1 (npHistRange ps).2 20 (j + 1)) / 2 := by
  unfold jawTuningXY
  dsimp only
  have hdl : (npHistEdges ps 20).dropLast =
      (List.range 20).map
        (fun m => binEdge (npHistRange ps).1 (npHistRange ps).2 20 m) := by
    unfold npHistEdges
    rw [← List.map_dropLast]
    rw [show (20 : ℕ) + 1 = Nat.succ 20 from rfl, List.range_succ, List.dropLast_concat]
  rw [hdl, List.getD_eq_getElem?_getD, List.getElem?_map, List.getElem?_map,
    List.getElem?_range hj]
  simp only [Option.map_some', Option.getD_some]
  rw [npHistEdges_getD ps 20 1 (by omega), npHistEdges_getD ps 20 0 (by omega)]
  unfold binEdge
  push_cast
  ring

/-- C3 counterexample: on spike-aligned phases `[1, 2]`, full phases
`[0, 1, 2, 4]` and sampling rate 2, the two `np.histogram(_, bins=20)` calls
of lines 87–88 use *different* bins (the spike histogram spans [1, 2], the
baseline histogram [0, 4] — neither spans [0, 2π)), and the stored tuning
value of bin 0 is `count/baseline * fs = 2`, not
`count/baseline / fs = 1/2` as the claim's "divided by the sampling rate"
requires. -/
theorem jawtuning_bins_and_rate_refuted :
    (npHistEdges [1, 2] 20).getD 0 0 = 1 ∧
    (npHistEdges [0, 1, 2, 4] 20).getD 0 0 = 0 ∧
    npHistEdges [1, 2] 20 ≠ npHistEdges [0, 1, 2, 4] 20 ∧
    (npHistCounts [1, 2] 20).getD 0 0 = 1 ∧
    (npHistCounts [0, 1, 2, 4] 20).getD 0 0 = 1 ∧
    (jawTuningXY [1, 2] [0, 1, 2, 4] 2).2.getD 0 0 = 2 ∧
    ((1 : ℚ) / (1 : ℚ)) / 2 = 1 / 2 ∧ (2 : ℚ) ≠ 1 / 2 := by
  have hr1 : npHistRange [1, 2] = (1, 2) := by
    norm_num [npHistRange, npMin, npMax, min_def, max_def]
  have hr2 : npHistRange [0, 1, 2, 4] = (0, 4) := by
    norm_num [npHistRange, npMin, npMax, min_def, max_def]
  have he1 : (npHistEdges [1, 2] 20).getD 0 0 = 1 := by
    rw [npHistEdges_getD _ _ 0 (by norm_num), hr1]
    norm_num [binEdge]
  have he2 : (npHistEdges [0, 1, 2, 4] 20).getD 0 0 = 0 := by
    rw [npHistEdges_getD _ _ 0 (by norm_num), hr2]
    norm_num [binEdge]
  have hc1 : (npHistCounts [1, 2] 20).getD 0 0 = 1 := by
    unfold npHistCounts
    rw [hr1]
    norm_num [npBinIdx, min_def, List.filter]
  have hc2 : (npHistCounts [0, 1, 2, 4] 20).getD 0 0 = 1 := by
    unfold npHistCounts
    rw [hr2]
    norm_num [npBinIdx, min_def, List.filter]
  refine ⟨he1, he2, ?_, hc1, hc2, ?_, by norm_num, by norm_num⟩
  · intro h
    have := congrArg (fun l => l.getD 0 0) h
    simp only [he1, he2] at this
    norm_num at this
  · rw [jawTuningXY_y_getD _ _ _ 0 (by norm_num), hc1, hc2]
    norm_num

/-- C3 (amended): both histograms use 20 equal-width bins, but each spans the
min–max range of its *own* data (np.histogram default) rather than a shared
[0, 2π): the j-th tuning value equals the number of spike-aligned phases in
bin j of the spike-phase range, divided by the number of phase samples in
bin j of the full-phase range, *multiplied* by the sampling rate; the
reported bin centres are those of the baseline histogram.  (For a bin with
zero baseline occupancy numpy produces inf/nan; the `ℚ` embedding renders
that division as 0 on both sides of the equality.) -/
theorem jawtuning_curve_spec (ap ps : List ℚ) (fs : ℚ) (j : ℕ) (hj : j < 20)
    (hap : ap ≠ []) (hps : ps ≠ []) :
    (jawTuningXY ap ps fs).2.getD j 0 =
      ((ap.filter (fun x =>
        decide (binEdge (npHistRange ap).1 (npHistRange ap).2 20 j ≤ x ∧
          (x < binEdge (npHistRange ap).1 (npHistRange ap).2 20 (j + 1) ∨
           (j = 20 - 1 ∧ x = (npHistRange ap).2))))).length : ℚ) /
      ((ps.filter (fun x =>
        decide (binEdge (npHistRange ps).1 (npHistRange ps).2 20 j ≤ x ∧
          (x < binEdge (npHistRange ps).1 (npHistRange ps).2 20 (j + 1) ∨
           (j = 20 - 1 ∧ x = (npHistRange ps).2))))).length : ℚ) * fs ∧
    (jawTuningXY ap ps fs).1.getD j 0 =
      (binEdge (npHistRange ps).1 (npHistRange ps).2 20 j +
       binEdge (npHistRange ps).1 (npHistRange ps).2 20 (j + 1)) / 2 := by
  constructor
  · rw [jawTuningXY_y_getD ap ps fs j hj,
      npHistCounts_interval ap 20 (by norm_num) hap j hj,
      npHistCounts_interval ps 20 (by norm_num) hps j hj]
  · exact jawTuningXY_x_getD ap ps fs j hj

/-- C3 witness: the amended theorem applied at spike phases `[1, 2]`, full
phases `[0, 1, 2, 4]`, sampling rate 2 and bin 0 (where the tuning value is
1/1 · 2 = 2). -/
theorem jawtuning_curve_spec_witness :
    ((0 : ℕ) < 20 ∧ ([1, 2] : List ℚ) ≠ [] ∧ ([0, 1, 2, 4] : List ℚ) ≠ []) ∧
    ((jawTuningXY [1, 2] [0, 1, 2, 4] 2).2.getD 0 0 =
      ((([1, 2] : List ℚ).filter (fun x =>
        decide (binEdge (npHistRange [1, 2]).1 (npHistRange [1, 2]).2 20 0 ≤ x ∧
          (x < binEdge (npHistRange [1, 2]).1 (npHistRange [1, 2]).2 20 (0 + 1) ∨
           ((0 : ℕ) = 20 - 1 ∧ x = (npHistRange [1, 2]).2))))).length : ℚ) /
      ((([0, 1, 2, 4] : List ℚ).filter (fun x =>
        decide (binEdge (npHistRange [0, 1, 2, 4]).1 (npHistRange [0, 1, 2, 4]).2 20 0 ≤ x ∧
          (x < binEdge (npHistRange [0, 1, 2, 4]).1 (npHistRange [0, 1, 2, 4]).2 20 (0 + 1) ∨
           ((0 : ℕ) = 20 - 1 ∧ x = (npHistRange [0, 1, 2, 4]).2))))).length : ℚ) * 2 ∧
    (jawTuningXY [1, 2] [0, 1, 2, 4] 2).1.getD 0 0 =
      (binEdge (npHistRange [0, 1, 2, 4]).1 (npHistRange [0, 1, 2, 4]).2 20 0 +
       binEdge (npHistRange [0, 1, 2, 4]).1 (npHistRange [0, 1, 2, 4]).2 20 (0 + 1)) / 2) :=
  ⟨⟨by norm_num, by simp, by simp⟩,
   jawtuning_curve_spec [1, 2] [0, 1, 2, 4] 2 0 (by norm_num) (by simp) (by simp)⟩

/-! ### Claim C8 — permutation significance test

`JawTuning.make` lines 94–102: 100 permutation rounds; each draws
`np.random.choice(phase_s, n_spk)` (with replacement, size = number of
spike-aligned phases), histograms the sample into 20 bins, normalizes by the
same `baseline` histogram and by the sampling rate, and extracts the
modulation index with `helper_functions.compute_phase_tuning`; finally
`_, di_perm = stats.mannwhitneyu(modulation_index, di_distr,
alternative='greater')` reports the one-sided rank-test p-value.  The random
draw, the tuning fit and the rank test are external calls, modelled as
oracles. -/

/-- external calls of the permutation loop: `draw ip k` is the index into
`phase_s` picked by `np.random.choice` in round `ip` for sample slot `k`
(choice with replacement: any index function is admissible);
`computePT x y` is `helper_functions.compute_phase_tuning(x, y)` returning
(preferred_phase, modulation_index); `mwuGreater u vs` is the p-value of
`stats.mannwhitneyu(u, vs, alternative='greater')`. -/
structure PermOracles where
  draw : ℕ → ℕ → ℕ
  computePT : List ℚ → List ℚ → ℚ × ℚ
  mwuGreater : ℚ → List ℚ → ℚ

/-- lines 94–102: the null distribution `di_distr` and the reported p-value
`di_perm`. -/
def jawPermTest (phase_s tofitx : List ℚ) (fs : ℚ) (n_spk : ℕ)
    (modulation_index : ℚ) (o : PermOracles) : List ℚ × ℚ :=
  let n_perm := 100
  let n_bins := 20
  let baseline := npHistCounts phase_s n_bins
  let di_distr := (List.range n_perm).map (fun ip =>
    let sample := (List.range n_spk).map (fun k => phase_s.getD (o.draw ip k) 0)
    let tofity_p := npHistCounts sample n_bins
    let typ := List.zipWith (fun (c b : ℕ) => (c : ℚ) / (b : ℚ) * fs) tofity_p baseline
    (o.computePT tofitx typ).2)
  (di_distr, o.mwuGreater modulation_index di_distr)

/-- C8: provided the random draws index into the phase population, the null
distribution has exactly 100 entries; every entry is the modulation index
(second output of the tuning fit) of the rate-normalized tuning curve of
*some* sample of size `n_spk` drawn from the full phase population, with the
same baseline occupancy normalization and sampling-rate factor; and the
reported p-value is the one-sided ('greater') rank-test comparison of the
observed modulation index against that null distribution. -/
theorem jawtuning_perm_null_distribution (phase_s tofitx : List ℚ) (fs : ℚ)
    (n_spk : ℕ) (mi : ℚ) (o : PermOracles)
    (hdraw : ∀ ip k, o.draw ip k < phase_s.length) :
    (jawPermTest phase_s tofitx fs n_spk mi o).1.length = 100 ∧
    (∀ d ∈ (jawPermTest phase_s tofitx fs n_spk mi o).1,
      ∃ sample : List ℚ, sample.length = n_spk ∧ (∀ x ∈ sample, x ∈ phase_s) ∧
        d = (o.computePT tofitx
          (List.zipWith (fun (c b : ℕ) => (c : ℚ) / (b : ℚ) * fs)
            (npHistCounts sample 20) (npHistCounts phase_s 20))).2) ∧
    (jawPermTest phase_s tofitx fs n_spk mi o).2 =
      o.mwuGreater mi (jawPermTest phase_s tofitx fs n_spk mi o).1 := by
  refine ⟨by simp [jawPermTest], ?_, rfl⟩
  intro d hd
  unfold jawPermTest at hd
  simp only [List.mem_map, List.mem_range] at hd
  obtain ⟨ip, _, hde⟩ := hd
  refine ⟨(List.range n_spk).map (fun k => phase_s.getD (o.draw ip k) 0), by simp, ?_, hde.symm⟩
  intro x hx
  simp only [List.mem_map, List.mem_range] at hx
  obtain ⟨k, _, hk⟩ := hx
  rw [← hk, List.getD_eq_getElem?_getD,
    List.getElem?_eq_getElem (hdraw ip k), Option.getD_some]
  exact List.getElem_mem _

/-- C8 witness: the theorem applied to a one-element phase population with
trivial oracles (constant draw 0). -/
theorem jawtuning_perm_null_distribution_witness :
    (∀ ip k, (PermOracles.mk (fun _ _ => 0) (fun _ _ => (0, 0)) (fun _ _ => 0)).draw ip k <
      ([3] : List ℚ).length) ∧
    ((jawPermTest [3] [0] 1 2 0
        (PermOracles.mk (fun _ _ => 0) (fun _ _ => (0, 0)) (fun _ _ => 0))).1.length = 100 ∧
     (∀ d ∈ (jawPermTest [3] [0] 1 2 0
        (PermOracles.mk (fun _ _ => 0) (fun _ _ => (0, 0)) (fun _ _ => 0))).1,
      ∃ sample : List ℚ, sample.length = 2 ∧ (∀ x ∈ sample, x ∈ ([3] : List ℚ)) ∧
        d = ((PermOracles.mk (fun _ _ => 0) (fun _ _ => (0, 0))
              (fun _ _ => (0 : ℚ))).computePT [0]
          (List.zipWith (fun (c b : ℕ) => (c : ℚ) / (b : ℚ) * 1)
            (npHistCounts sample 20) (npHistCounts [3] 20))).2) ∧
     (jawPermTest [3] [0] 1 2 0
        (PermOracles.mk (fun _ _ => 0) (fun _ _ => (0, 0)) (fun _ _ => 0))).2 =
      (PermOracles.mk (fun _ _ => 0) (fun _ _ => (0, 0)) (fun _ _ => (0 : ℚ))).mwuGreater 0
        (jawPermTest [3] [0] 1 2 0
          (PermOracles.mk (fun _ _ => 0) (fun _ _ => (0, 0)) (fun _ _ => 0))).1) :=
  ⟨fun _ _ => Nat.zero_lt_one,
   jawtuning_perm_null_distribution [3] [0] 1 2 0
     (PermOracles.mk (fun _ _ => 0) (fun _ _ => (0, 0)) (fun _ _ => 0))
     (fun _ _ => Nat.zero_lt_one)⟩

/-! ### Claim C10 — spike-index conversion and bounded phase access

`JawTuning.make` lines 55–60 select the trials whose trace length equals the
(integer-cast) median length, so every phase row has that common length; and
lines 71–80 convert each trial's spike times to integer sample indices,
filter them to `< num_frame` (1470), and use them to fancy-index the trial's
phase row. -/

/-- lines 56–59: `traces_length = [len(d) for d in session_traces]`;
`sample_number = int(np.median(traces_length))`;
`good_trial_ind = np.where(np.array(traces_length) == sample_number)[0]`. -/
def tracesMedianSelect (session_traces : List (List ℚ)) : ℕ × List ℕ :=
  let traces_length := session_traces.map List.length
  let sample_number := (pyTrunc (npMedian traces_length)).toNat
  (sample_number, argwhere (traces_length.map (fun x => decide (x = sample_number))))

/-- lines 72–77: `good_spikes = np.array(all_spikes*float(fs))` cast with
`astype(int)` and filtered by `d[d < num_frame]`, per trial. -/
def goodSpikes (all_spikes : List (List ℚ)) (fs : ℚ) (num_frame : ℤ) : List (List ℤ) :=
  all_spikes.map (fun d =>
    (d.map (fun t => pyTrunc (t * fs))).filter (fun k => decide (k < num_frame)))

/-- Python-loop traversal that stops at the first raising step. -/
def optMapM (f : α → Option β) : List α → Option (List β)
  | [] => some []
  | a :: t =>
    match f a with
    | none => none
    | some b => (optMapM f t).map (fun l => b :: l)

/-- numpy 1-d fancy indexing with one integer index: negative indices wrap
once, out-of-range indices raise IndexError. -/
def npIndex1 (row : List ℚ) (k : ℤ) : Option ℚ :=
  if 0 ≤ k then
    if k < (row.length : ℤ) then some (row.getD k.toNat 0) else none
  else if -k ≤ (row.length : ℤ) then some (row.getD (k + row.length).toNat 0) else none

/-- numpy fancy indexing of a row by an index vector. -/
def npGather (row : List ℚ) (ks : List ℤ) : Option (List ℚ) :=
  optMapM (npIndex1 row) ks

/-- lines 78–82: `all_phase` accumulated per trial by
`phase[trial_idx][good_spikes[trial_idx]]`, then `np.hstack`-ed; indexing a
missing trial row or an out-of-range sample raises. -/
def unit_all_phase (phase : List (List ℚ)) (good_spikes : List (List ℤ)) :
    Option (List ℚ) :=
  if good_spikes.length ≤ phase.length then
    (optMapM (fun p => npGather p.1 p.2) (List.zip phase good_spikes)).map List.flatten
  else none

theorem optMapM_eq_some_of_forall (f : α → Option β) (g : α → β) (l : List α)
    (h : ∀ a ∈ l, f a = some (g a)) : optMapM f l = some (l.map g) := by
  induction l with
  | nil => rfl
  | cons a t ih =>
    unfold optMapM
    rw [h a (List.mem_cons_self a t), ih (fun x hx => h x (List.mem_cons_of_mem a hx))]
    rfl

theorem tracesMedianSelect_lengths (session_traces : List (List ℚ)) :
    ∀ i ∈ (tracesMedianSelect session_traces).2,
      ((session_traces.getD i []).length) = (tracesMedianSelect session_traces).1 := by
  intro i hi
  unfold tracesMedianSelect at hi ⊢
  dsimp only at hi ⊢
  rw [argwhere, List.mem_filter, List.mem_range] at hi
  obtain ⟨hilen, hcond⟩ := hi
  rw [List.length_map, List.length_map] at hilen
  rw [List.getD_eq_getElem?_getD, List.getElem?_map, List.getElem?_map,
    List.getElem?_eq_getElem hilen] at hcond
  simp only [Option.map_some', Option.getD_some, decide_eq_true_eq] at hcond
  rw [List.getD_eq_getElem?_getD, List.getElem?_eq_getElem hilen, Option.getD_some]
  exact hcond

/-- C10: every selected trial's trace has the common (median) length; spike
times are truncated to integer sample indices and those `≥ 1470` are
silently dropped; and under the claim's preconditions (non-negative spike
times, non-negative sampling rate, common row length `L ≥ 1470`, one phase
row per spike trial) every phase access is in bounds: no call raises, and
the gathered phases are exactly the direct in-bounds reads at the surviving
indices. -/
theorem jawtuning_phase_access_safe
    (phase : List (List ℚ)) (spikes : List (List ℚ)) (fs : ℚ) (L : ℕ)
    (hrow : ∀ row ∈ phase, row.length = L) (hL : 1470 ≤ L)
    (hs : ∀ d ∈ spikes, ∀ t ∈ d, 0 ≤ t) (hfs : 0 ≤ fs)
    (hlen : spikes.length ≤ phase.length) :
    (∀ st : List (List ℚ), ∀ i ∈ (tracesMedianSelect st).2,
      ((st.getD i []).length) = (tracesMedianSelect st).1) ∧
    (∀ ks ∈ goodSpikes spikes fs 1470, ∀ k ∈ ks, 0 ≤ k ∧ k < 1470) ∧
    unit_all_phase phase (goodSpikes spikes fs 1470) =
      some ((List.zip phase (goodSpikes spikes fs 1470)).map
        (fun p => p.2.map (fun k => p.1.getD k.toNat 0))).flatten := by
  refine ⟨tracesMedianSelect_lengths, ?_⟩
  have hbound : ∀ ks ∈ goodSpikes spikes fs 1470, ∀ k ∈ ks, 0 ≤ k ∧ k < 1470 := by
    intro ks hks k hk
    unfold goodSpikes at hks
    rw [List.mem_map] at hks
    obtain ⟨d, hd, hdk⟩ := hks
    rw [← hdk, List.mem_filter] at hk
    obtain ⟨hk1, hk2⟩ := hk
    rw [List.mem_map] at hk1
    obtain ⟨t, ht, htk⟩ := hk1
    have ht0 : 0 ≤ t := hs d hd t ht
    have : 0 ≤ t * fs := mul_nonneg ht0 hfs
    constructor
    · rw [← htk]
      unfold pyTrunc
      rw [if_pos this]
      exact Int.floor_nonneg.mpr this
    · exact_mod_cast of_decide_eq_true hk2
  refine ⟨hbound, ?_⟩
  have hmain : optMapM (fun p => npGather p.1 p.2)
      (List.zip phase (goodSpikes spikes fs 1470)) =
      some ((List.zip phase (goodSpikes spikes fs 1470)).map
        (fun p => p.2.map (fun k => p.1.getD k.toNat 0))) := by
    apply optMapM_eq_some_of_forall
    intro p hp
    have hprow : p.1 ∈ phase := (List.of_mem_zip hp).1
    have hpks : p.2 ∈ goodSpikes spikes fs 1470 := (List.of_mem_zip hp).2
    unfold npGather
    apply optMapM_eq_some_of_forall
    intro k hk
    have hb := hbound p.2 hpks k hk
    unfold npIndex1
    rw [if_pos hb.1, if_pos (by rw [hrow p.1 hprow]; omega)]
  unfold unit_all_phase
  rw [if_pos (by rw [goodSpikes, List.length_map]; exact hlen), hmain]
  rfl

/-- C10 witness: one trial, phase row of length 1470, a single spike at time
0 with sampling rate 1. -/
theorem jawtuning_phase_access_safe_witness :
    ((∀ row ∈ [List.replicate 1470 (0 : ℚ)], row.length = 1470) ∧
     (1470 : ℕ) ≤ 1470 ∧
     (∀ d ∈ ([[0]] : List (List ℚ)), ∀ t ∈ d, 0 ≤ t) ∧
     (0 : ℚ) ≤ 1 ∧
     ([[0]] : List (List ℚ)).length ≤ [List.replicate 1470 (0 : ℚ)].length) ∧
    ((∀ st : List (List ℚ), ∀ i ∈ (tracesMedianSelect st).2,
      ((st.getD i []).length) = (tracesMedianSelect st).1) ∧
     (∀ ks ∈ goodSpikes [[0]] 1 1470, ∀ k ∈ ks, 0 ≤ k ∧ k < 1470) ∧
     unit_all_phase [List.replicate 1470 (0 : ℚ)] (goodSpikes [[0]] 1 1470) =
      some ((List.zip [List.replicate 1470 (0 : ℚ)] (goodSpikes [[0]] 1 1470)).map
        (fun p => p.2.map (fun k => p.1.getD k.toNat 0))).flatten) :=
  ⟨⟨by intro row hrow; rw [List.mem_singleton] at hrow; rw [hrow, List.length_replicate],
    le_refl _, by norm_num, by norm_num, le_refl _⟩,
   jawtuning_phase_access_safe [List.replicate 1470 (0 : ℚ)] [[0]] 1 1470
     (by intro row hrow; rw [List.mem_singleton] at hrow; rw [hrow, List.length_replicate])
     (le_refl _) (by norm_num) (by norm_num) (le_refl _)⟩

/-! ### Claim C9 — the double string-keyed sort of trial indices

`WhiskerTuning.make` lines 210–213 (identically `GLMFit.make` 465–468 and
`MovementTiming.make` 1591–1594):

    trial_idx_nat = [d.astype(str) for d in np.arange(num_trial_w)]
    trial_idx_nat = sorted(range(len(trial_idx_nat)), key=lambda k: trial_idx_nat[k])
    trial_idx_nat = sorted(range(len(trial_idx_nat)), key=lambda k: trial_idx_nat[k])

The first `sorted` argsorts the decimal-string forms; the second argsorts the
resulting integer list, producing the inverse permutation of the first — that
is, the string-rank of each index.  Strings of decimal digits compare
character-by-character exactly as their digit lists do, so the string key is
modelled by the digit list (most significant first). -/

/-- decimal digit list of `n`, most significant first: the model of
Python `str(n)` for a nonnegative integer. -/
def decDigitsAux : ℕ → ℕ → List ℕ
  | 0, _ => []
  | fuel + 1, n => if n < 10 then [n] else decDigitsAux fuel (n / 10) ++ [n % 10]

/-- decimal digit list of `n` (fuel `n + 1` always suffices). -/
def decDigits (n : ℕ) : List ℕ := decDigitsAux (n + 1) n

/-- value of a digit list, most significant first. -/
def digitsVal (l : List ℕ) : ℕ := l.foldl (fun acc d => 10 * acc + d) 0

/-- strict lexicographic comparison of digit lists: Python string `<` on
decimal-digit strings. -/
def digitsLt : List ℕ → List ℕ → Bool
  | [], [] => false
  | [], _ :: _ => true
  | _ :: _, [] => false
  | a :: as, b :: bs => if a < b then true else if b < a then false else digitsLt as bs

theorem digitsVal_append_singleton (l : List ℕ) (d : ℕ) :
    digitsVal (l ++ [d]) = 10 * digitsVal l + d := by
  unfold digitsVal
  rw [List.foldl_append]
  rfl

theorem digitsVal_decDigitsAux : ∀ (fuel n : ℕ), n < fuel →
    digitsVal (decDigitsAux fuel n) = n := by
  intro fuel
  induction fuel with
  | zero => intro n hn; omega
  | succ fuel ih =>
    intro n hn
    unfold decDigitsAux
    by_cases h : n < 10
    · rw [if_pos h]
      simp [digitsVal]
    · rw [if_neg h, digitsVal_append_singleton, ih (n / 10) (by omega)]
      omega

theorem decDigits_inj : Function.Injective decDigits := by
  intro a b hab
  have ha := digitsVal_decDigitsAux (a + 1) a (Nat.lt_succ_self a)
  have hb := digitsVal_decDigitsAux (b + 1) b (Nat.lt_succ_self b)
  rw [← ha, ← hb]
  unfold decDigits at hab
  rw [hab]

theorem digitsLt_irrefl : ∀ l : List ℕ, digitsLt l l = false := by
  intro l
  induction l with
  | nil => rfl
  | cons a t ih => simp [digitsLt, ih]

theorem digitsLt_nil_right : ∀ l : List ℕ, digitsLt l [] = false := by
  intro l
  cases l <;> rfl

theorem digitsLt_eq_of_not (x : List ℕ) : ∀ y : List ℕ,
    digitsLt x y = false → digitsLt y x = false → x = y := by
  induction x with
  | nil =>
    intro y h1 _
    cases y with
    | nil => rfl
    | cons b bs => simp [digitsLt] at h1
  | cons a as ih =>
    intro y h1 h2
    cases y with
    | nil => simp [digitsLt] at h2
    | cons b bs =>
      simp only [digitsLt] at h1 h2
      by_cases hab : a < b
      · rw [if_pos hab] at h1; cases h1
      by_cases hba : b < a
      · rw [if_pos hba] at h2; cases h2
      rw [if_neg hab, if_neg hba] at h1
      rw [if_neg hba, if_neg hab] at h2
      have : a = b := by omega
      rw [this, ih bs h1 h2]

theorem digitsLt_asymm (x : List ℕ) : ∀ y : List ℕ,
    digitsLt x y = true → digitsLt y x = false := by
  induction x with
  | nil =>
    intro y _
    exact digitsLt_nil_right y
  | cons a as ih =>
    intro y h
    cases y with
    | nil => rw [digitsLt_nil_right] at h; cases h
    | cons b bs =>
      simp only [digitsLt] at h ⊢
      by_cases hab : a < b
      · have h1 : ¬ b < a := by omega
        rw [if_neg h1, if_pos hab]
      · by_cases hba : b < a
        · rw [if_neg hab, if_pos hba] at h
          cases h
        · rw [if_neg hab, if_neg hba] at h
          rw [if_neg hba, if_neg hab]
          exact ih bs h

theorem digitsLt_trans (x : List ℕ) : ∀ y z : List ℕ,
    digitsLt x y = true → digitsLt y z = true → digitsLt x z = true := by
  induction x with
  | nil =>
    intro y z _ h2
    cases z with
    | nil => rw [digitsLt_nil_right] at h2; cases h2
    | cons c cs => rfl
  | cons a as ih =>
    intro y z h1 h2
    cases y with
    | nil => rw [digitsLt_nil_right] at h1; cases h1
    | cons b bs =>
      cases z with
      | nil => rw [digitsLt_nil_right] at h2; cases h2
      | cons c cs =>
        simp only [digitsLt] at h1 h2 ⊢
        by_cases hab : a < b <;> by_cases hbc : b < c
        · rw [if_pos (by omega)]
        · rw [if_neg hbc] at h2
          by_cases hcb : c < b
          · rw [if_pos hcb] at h2; cases h2
          · rw [if_pos (by omega)]
        · rw [if_neg hab] at h1
          by_cases hba : b < a
          · rw [if_pos hba] at h1; cases h1
          · rw [if_pos (by omega)]
        · rw [if_neg hab] at h1
          rw [if_neg hbc] at h2
          by_cases hba : b < a
          · rw [if_pos hba] at h1; cases h1
          by_cases hcb : c < b
          · rw [if_pos hcb] at h2; cases h2
          rw [if_neg hba] at h1
          rw [if_neg hcb] at h2
          have hac : ¬ a < c := by omega
          have hca : ¬ c < a := by omega
          rw [if_neg hac, if_neg hca]
          exact ih bs cs h1 h2

/-- the key order of `sorted(range(n), key=lambda k: str(k))`: index `a`
precedes index `b` when str(a) ≤ str(b). -/
def strKeyLe (a b : ℕ) : Prop := digitsLt (decDigits b) (decDigits a) = false

instance : DecidableRel strKeyLe :=
  fun a b => instDecidableEqBool (digitsLt (decDigits b) (decDigits a)) false

instance : IsTotal ℕ strKeyLe where
  total a b := by
    unfold strKeyLe
    by_cases h : digitsLt (decDigits b) (decDigits a) = false
    · exact Or.inl h
    · exact Or.inr (digitsLt_asymm _ _ (by revert h; cases digitsLt (decDigits b) (decDigits a) <;> simp))

instance : IsTrans ℕ strKeyLe where
  trans a b c hab hbc := by
    unfold strKeyLe at *
    by_contra h
    have h' : digitsLt (decDigits c) (decDigits a) = true := by
      revert h; cases digitsLt (decDigits c) (decDigits a) <;> simp
    by_cases hcb : digitsLt (decDigits c) (decDigits b) = true
    · rw [hbc] at hcb; cases hcb
    · have hcb' : digitsLt (decDigits c) (decDigits b) = false := by
        revert hcb; cases digitsLt (decDigits c) (decDigits b) <;> simp
      by_cases hbcl : digitsLt (decDigits b) (decDigits c) = true
      · have := digitsLt_trans _ _ _ hbcl h'
        rw [hab] at this; cases this
      · have hbcl' : digitsLt (decDigits b) (decDigits c) = false := by
          revert hbcl; cases digitsLt (decDigits b) (decDigits c) <;> simp
        have : decDigits b = decDigits c := digitsLt_eq_of_not _ _ hbcl' hcb'
        rw [← this] at h'
        rw [hab] at h'; cases h'

instance : IsAntisymm ℕ strKeyLe where
  antisymm a b hab hba := by
    unfold strKeyLe at hab hba
    exact decDigits_inj (digitsLt_eq_of_not _ _ hba hab)

/-- `sorted(range(n), key=lambda k: trial_idx_nat[k])` with the string keys
(first sort of lines 211–212). -/
def pySortedByStr (n : ℕ) : List ℕ := List.insertionSort strKeyLe (List.range n)

/-- lines 210–213: the list after both `sorted` calls — the second sort uses
the integer entries of the first sort's result as keys. -/
def trial_idx_nat (n : ℕ) : List ℕ :=
  List.insertionSort
    (fun a b => (pySortedByStr n).getD a 0 ≤ (pySortedByStr n).getD b 0) (List.range n)

/-- rank of `k` among 0..n−1 in lexicographic decimal-string order. -/
def strRank (n k : ℕ) : ℕ :=
  ((List.range n).filter (fun j => digitsLt (decDigits j) (decDigits k))).length

theorem pySortedByStr_perm (n : ℕ) : (pySortedByStr n).Perm (List.range n) :=
  List.perm_insertionSort _ _

theorem pySortedByStr_length (n : ℕ) : (pySortedByStr n).length = n := by
  rw [(pySortedByStr_perm n).length_eq, List.length_range]

theorem pySortedByStr_nodup (n : ℕ) : (pySortedByStr n).Nodup :=
  ((pySortedByStr_perm n).nodup_iff).mpr (List.nodup_range n)

theorem pySortedByStr_sorted (n : ℕ) : List.Sorted strKeyLe (pySortedByStr n) :=
  List.sorted_insertionSort _ _

theorem strRank_getElem (n p : ℕ) (hp : p < (pySortedByStr n).length) :
    strRank n ((pySortedByStr n)[p]) = p := by
  set s := pySortedByStr n with hs
  set x := s[p] with hx
  have hsl : s.length = (pySortedByStr n).length := by rw [hs]
  have hperm := pySortedByStr_perm n
  have hsor := pySortedByStr_sorted n
  have hpair := hsor
  rw [List.Sorted, List.pairwise_iff_getElem] at hpair
  have hnodup := pySortedByStr_nodup n
  unfold strRank
  have hflen : ((List.range n).filter
      (fun j => digitsLt (decDigits j) (decDigits x))).length =
      (s.filter (fun j => digitsLt (decDigits j) (decDigits x))).length :=
    (hperm.symm.filter _).length_eq
  rw [hflen, ← List.take_append_drop p s, List.filter_append, List.length_append]
  have htake : (s.take p).filter (fun j => digitsLt (decDigits j) (decDigits x)) =
      s.take p := by
    rw [List.filter_eq_self]
    intro a ha
    rw [List.mem_take_iff_getElem] at ha
    obtain ⟨i, hi, hia⟩ := ha
    have hip : i < p := lt_of_lt_of_le hi (min_le_left _ _)
    have hkey : strKeyLe s[i] x := hpair i p (by omega) hp hip
    unfold strKeyLe at hkey
    by_cases hlt : digitsLt (decDigits s[i]) (decDigits x) = true
    · rw [← hia]; exact hlt
    · exfalso
      have hlt' : digitsLt (decDigits s[i]) (decDigits x) = false := by
        revert hlt; cases digitsLt (decDigits s[i]) (decDigits x) <;> simp
      have : decDigits s[i] = decDigits x := digitsLt_eq_of_not _ _ hlt' hkey
      have : s[i] = s[p] := decDigits_inj this
      rw [hnodup.getElem_inj_iff] at this
      omega
  have hdrop : (s.drop p).filter (fun j => digitsLt (decDigits j) (decDigits x)) = [] := by
    rw [List.filter_eq_nil_iff]
    intro a ha
    rw [List.mem_drop_iff_getElem] at ha
    obtain ⟨i, hi, hia⟩ := ha
    rcases Nat.eq_zero_or_pos i with rfl | hipos
    · rw [← hia]
      simp only [Nat.add_zero, ← hx]
      rw [digitsLt_irrefl]
      simp
    · have hkey : strKeyLe s[p] s[p + i] := hpair p (p + i) hp (by omega) (by omega)
      unfold strKeyLe at hkey
      rw [← hia, hkey]
      simp
  rw [htake, hdrop, List.length_take, List.length_nil]
  rw [hs] at hp ⊢
  rw [min_eq_left (le_of_lt hp)]
  rfl

theorem pySortedByStr_getD_strRank (n j : ℕ) (hj : j < n) :
    (pySortedByStr n).getD (strRank n j) 0 = j := by
  have hmem : j ∈ pySortedByStr n :=
    (pySortedByStr_perm n).symm.mem_iff.mp (List.mem_range.mpr hj)
  obtain ⟨p, hp, hpj⟩ := List.getElem_of_mem hmem
  have hrank := strRank_getElem n p hp
  rw [hpj] at hrank
  rw [hrank, List.getD_eq_getElem?_getD, List.getElem?_eq_getElem hp,
    Option.getD_some]
  exact hpj

theorem map_strRank_sorted_eq_range (n : ℕ) :
    (pySortedByStr n).map (strRank n) = List.range n := by
  apply List.ext_getElem
  · rw [List.length_map, pySortedByStr_length, List.length_range]
  · intro p h1 h2
    rw [List.getElem_map, List.getElem_range]
    exact strRank_getElem n p (by rw [List.length_map] at h1; exact h1)

theorem map_strRank_range_perm (n : ℕ) :
    ((List.range n).map (strRank n)).Perm (List.range n) := by
  have h1 : ((List.range n).map (strRank n)).Perm ((pySortedByStr n).map (strRank n)) :=
    ((pySortedByStr_perm n).map _).symm
  rw [map_strRank_sorted_eq_range] at h1
  exact h1

theorem eq_of_perm_of_sorted_on {r : α → α → Prop} :
    ∀ (l₁ l₂ : List α), l₁.Perm l₂ → l₁.Sorted r → l₂.Sorted r →
    (∀ a ∈ l₁, ∀ b ∈ l₁, r a b → r b a → a = b) → l₁ = l₂ := by
  intro l₁
  induction l₁ with
  | nil =>
    intro l₂ hp _ _ _
    rw [hp.symm.eq_nil]
  | cons a t ih =>
    intro l₂ hp hs1 hs2 ha
    cases l₂ with
    | nil => cases hp.eq_nil
    | cons b t₂ =>
      by_cases hab : a = b
      · subst hab
        rw [ih t₂ hp.cons_inv (List.sorted_cons.mp hs1).2 (List.sorted_cons.mp hs2).2
          (fun x hx y hy hxy hyx =>
            ha x (List.mem_cons_of_mem a hx) y (List.mem_cons_of_mem a hy) hxy hyx)]
      · exfalso
        have hma : a ∈ b :: t₂ := hp.mem_iff.mp (List.mem_cons_self a t)
        have hma' : a ∈ t₂ := by
          rcases List.mem_cons.mp hma with h | h
          · exact absurd h hab
          · exact h
        have hrba : r b a := (List.sorted_cons.mp hs2).1 a hma'
        have hmb : b ∈ a :: t := hp.symm.mem_iff.mp (List.mem_cons_self b t₂)
        have hmb' : b ∈ t := by
          rcases List.mem_cons.mp hmb with h | h
          · exact absurd h.symm hab
          · exact h
        have hrab : r a b := (List.sorted_cons.mp hs1).1 b hmb'
        exact hab (ha a (List.mem_cons_self a t) b (List.mem_cons_of_mem a hmb') hrab hrba)

theorem trial_idx_nat_eq_map_rank (n : ℕ) :
    trial_idx_nat n = (List.range n).map (strRank n) := by
  unfold trial_idx_nat
  haveI hTot : IsTotal ℕ (fun a b => (pySortedByStr n).getD a 0 ≤ (pySortedByStr n).getD b 0) :=
    ⟨fun a b => le_total _ _⟩
  haveI hTrans : IsTrans ℕ (fun a b => (pySortedByStr n).getD a 0 ≤ (pySortedByStr n).getD b 0) :=
    ⟨fun a b c hab hbc => le_trans hab hbc⟩
  apply eq_of_perm_of_sorted_on
  · exact (List.perm_insertionSort _ _).trans (map_strRank_range_perm n).symm
  · exact List.sorted_insertionSort _ _
  · show List.Pairwise _ ((List.range n).map (strRank n))
    rw [List.pairwise_map]
    refine (List.pairwise_lt_range n).imp_of_mem ?_
    intro i j hi hj hij
    rw [List.mem_range] at hi hj
    show (pySortedByStr n).getD (strRank n i) 0 ≤ (pySortedByStr n).getD (strRank n j) 0
    rw [pySortedByStr_getD_strRank n i hi, pySortedByStr_getD_strRank n j hj]
    exact le_of_lt hij
  · intro x hx y hy hxy hyx
    have hx' : x < n := by
      have := (List.perm_insertionSort
        (fun a b => (pySortedByStr n).getD a 0 ≤ (pySortedByStr n).getD b 0)
        (List.range n)).mem_iff.mp hx
      exact List.mem_range.mp this
    have hy' : y < n := by
      have := (List.perm_insertionSort
        (fun a b => (pySortedByStr n).getD a 0 ≤ (pySortedByStr n).getD b 0)
        (List.range n)).mem_iff.mp hy
      exact List.mem_range.mp this
    have heq : (pySortedByStr n).getD x 0 = (pySortedByStr n).getD y 0 :=
      le_antisymm hxy hyx
    have hxl : x < (pySortedByStr n).length := by rw [pySortedByStr_length]; exact hx'
    have hyl : y < (pySortedByStr n).length := by rw [pySortedByStr_length]; exact hy'
    rw [List.getD_eq_getElem?_getD, List.getElem?_eq_getElem hxl, Option.getD_some,
      List.getD_eq_getElem?_getD, List.getElem?_eq_getElem hyl, Option.getD_some] at heq
    exact ((pySortedByStr_nodup n).getElem_inj_iff).mp heq

/-- C9: the twice-sorted index list equals, at every position k, the rank of
k under lexicographic decimal-string order; consequently it is the identity
permutation `range n` exactly when n ≤ 10, and for n > 10 the motion-trace
rows indexed by it are permuted away from numeric trial order (the list
differs from `range n`, e.g. entry 2 holds the rank of "2", which is at
least 3 because "0", "1" and "10" all precede it). -/
theorem trial_reorder_is_string_rank (n : ℕ) :
    trial_idx_nat n = (List.range n).map (strRank n) ∧
    (trial_idx_nat n = List.range n ↔ n ≤ 10) := by
  refine ⟨trial_idx_nat_eq_map_rank n, ?_⟩
  rw [trial_idx_nat_eq_map_rank n]
  constructor
  · intro h
    by_contra hn
    push_neg at hn
    have h2n : 2 < n := by omega
    have hm2 : ((List.range n).map (strRank n)).getD 2 0 = strRank n 2 := by
      rw [List.getD_eq_getElem?_getD, List.getElem?_map, List.getElem?_range h2n]
      rfl
    have hr2 : (List.range n).getD 2 0 = 2 := by
      rw [List.getD_eq_getElem?_getD, List.getElem?_range h2n]
      rfl
    have hrank : 3 ≤ strRank n 2 := by
      unfold strRank
      have hsplit : n = 11 + (n - 11) := by omega
      rw [hsplit, List.range_add, List.filter_append, List.length_append]
      have hbase : ((List.range 11).filter
          (fun j => digitsLt (decDigits j) (decDigits 2))).length = 3 := by decide
      omega
    rw [h, hr2] at hm2
    omega
  · intro hn
    interval_cases n <;> decide

/-! ### C7 — `MovementTiming.make`, lick-bout grouping (lines 1626-1648)

The detector receives the increasing list `ton_onset` of threshold-crossing
times (line 1624).  `ilf = 1/np.diff(ton_onset)` is the instantaneous lick
frequency; crossings whose following interval has frequency in (3, 9) survive
(`ton_onset_idx`); of those, the loop of lines 1631-1637 keeps the ones whose
next surviving crossing is one crossing away; gaps `>= 2` in that index list
delimit bouts, with a roll-by-one for onsets, and `lick_bout_onset[0]`
(an unhandled `IndexError` when the array is empty, modelled as `none`) drives
the first/last-bout boundary correction of lines 1643-1645.  Lines 1647-1648
fancy-index `ton_onset` (truncated by one, line 1628); an out-of-range index
would also raise, modelled as `none`. -/

/-- `ilf = 1/np.diff(ton_onset)` (line 1626). -/
def lickIlf (ton_onset0 : List ℚ) : List ℚ := (npDiff ton_onset0).map (fun d => 1 / d)

/-- `f_cond = (ilf>3)&(ilf<9); ton_onset_idx = np.argwhere(f_cond)[:,0]`
(lines 1629-1630). -/
def lickTonOnsetIdx (ton_onset0 : List ℚ) : List ℕ :=
  argwhere ((lickIlf ton_onset0).map (fun x => decide (3 < x) && decide (x < 9)))

/-- The accumulation loop of lines 1631-1637: `next_lick = np.diff(ton_onset_idx)`,
and `ton_onset_idx[i]` is kept for `i, tongue in enumerate(ton_onset_idx[:-2])`
whenever `next_lick[i] == 1`. -/
def lickOnsetIdx (ton_onset0 : List ℚ) : List ℕ :=
  (((lickTonOnsetIdx ton_onset0).take ((lickTonOnsetIdx ton_onset0).length - 2)).enum.filter
    (fun p => decide ((npDiffZ (lickTonOnsetIdx ton_onset0)).getD p.1 0 = 1))).map Prod.snd

/-- `lick_bout_onset = np.argwhere(np.roll(np.diff(lick_onset_idx), 1) >= 2)[:,0]`
(lines 1638-1641). -/
def lickBoutOnRaw (ton_onset0 : List ℚ) : List ℕ :=
  argwhere ((npRoll 1 (npDiffZ (lickOnsetIdx ton_onset0))).map (fun x => decide (2 ≤ x)))

/-- `lick_bout_offset = np.argwhere(np.diff(lick_onset_idx) >= 2)[:,0]`
(lines 1638-1642). -/
def lickBoutOffRaw (ton_onset0 : List ℚ) : List ℕ :=
  argwhere ((npDiffZ (lickOnsetIdx ton_onset0)).map (fun x => decide (2 ≤ x)))

/-- Lines 1626-1648 of `MovementTiming.make`: from the crossing-time list to
`(lick_onset_time, lick_offset_time)`.  `none` models an unhandled exception:
`lick_bout_onset[0]` on an empty array (line 1643), or an out-of-range fancy
index into the truncated `ton_onset` (lines 1647-1648; the indices into
`lick_onset_idx` itself are always in range, see `lickBout_core` below). -/
def lickBoutDetect (ton_onset0 : List ℚ) : Option (List ℚ × List ℚ) :=
  let ton_onset := ton_onset0.dropLast
  let L := lickOnsetIdx ton_onset0
  let A0 := lickBoutOnRaw ton_onset0
  let B0 := lickBoutOffRaw ton_onset0
  if A0 = [] then none
  else
    let bout_on := if A0.headD 0 ≠ 0 then 0 :: A0 else A0
    let bout_off := if A0.headD 0 ≠ 0 then B0 ++ [L.length - 1] else B0
    let onIdx := bout_on.map (fun b => L.getD b 0)
    let offIdx := bout_off.map (fun b => L.getD b 0 + 2)
    if (onIdx ++ offIdx).all (fun k => decide (k < ton_onset.length)) then
      some (onIdx.map (fun k => ton_onset.getD k 0), offIdx.map (fun k => ton_onset.getD k 0))
    else none

theorem npDiff_length : ∀ l : List ℚ, (npDiff l).length = l.length - 1
  | [] => rfl
  | [_] => rfl
  | a :: b :: t => by
    have := npDiff_length (b :: t)
    simp only [npDiff, List.length_cons] at this ⊢
    omega

theorem npDiffZ_length : ∀ l : List ℕ, (npDiffZ l).length = l.length - 1
  | [] => rfl
  | [_] => rfl
  | a :: b :: t => by
    have := npDiffZ_length (b :: t)
    simp only [npDiffZ, List.length_cons] at this ⊢
    omega

theorem npDiffZ_getD : ∀ (l : List ℕ) (i : ℕ), i + 1 < l.length →
    (npDiffZ l).getD i 0 = (l.getD (i + 1) 0 : ℤ) - (l.getD i 0 : ℤ)
  | [], i, h => by simp at h
  | [_], i, h => by simp at h
  | a :: b :: t, 0, _ => by simp [npDiffZ]
  | a :: b :: t, i + 1, h => by
    have := npDiffZ_getD (b :: t) i (by simpa using h)
    simpa [npDiffZ] using this

theorem argwhere_mem (c : List Bool) (x : ℕ) :
    x ∈ argwhere c ↔ x < c.length ∧ c.getD x false = true := by
  simp [argwhere, List.mem_filter, List.mem_range]

theorem argwhere_pairwise (c : List Bool) : List.Pairwise (· < ·) (argwhere c) :=
  List.Pairwise.sublist (List.filter_sublist _) (List.pairwise_lt_range _)

theorem argwhere_cons (b : Bool) (c : List Bool) :
    argwhere (b :: c) = (if b then [0] else []) ++ (argwhere c).map (· + 1) := by
  unfold argwhere
  rw [List.length_cons, List.range_succ_eq_map, List.filter_cons]
  cases b <;>
    simp [List.filter_map, Function.comp_def, Nat.succ_eq_add_one]

theorem argwhere_append (c₁ c₂ : List Bool) :
    argwhere (c₁ ++ c₂) = argwhere c₁ ++ (argwhere c₂).map (· + c₁.length) := by
  induction c₁ with
  | nil => simp [argwhere]
  | cons b t ih =>
    rw [List.cons_append, argwhere_cons, argwhere_cons, ih]
    cases b <;>
      simp [List.map_map, Function.comp_def, Nat.add_assoc, Nat.add_comm 1 t.length]

theorem npRoll_one {α : Type} (l : List α) (h : l ≠ []) :
    npRoll 1 l = l.getLast h :: l.dropLast := by
  obtain ⟨l₁, x, rfl⟩ : ∃ l₁ x, l = l₁ ++ [x] :=
    ⟨l.dropLast, l.getLast h, (List.dropLast_append_getLast h).symm⟩
  unfold npRoll
  rw [if_neg (by simp)]
  have hmod : ((-1 : ℤ) % ((l₁ ++ [x]).length : ℤ)).toNat = l₁.length := by
    have hlen : ((l₁ ++ [x]).length : ℤ) = (l₁.length : ℤ) + 1 := by
      simp
    rw [hlen]
    have h2 := Int.add_mul_emod_self_left (-1) ((l₁.length : ℤ) + 1) 1
    rw [show (-1 : ℤ) + ((l₁.length : ℤ) + 1) * 1 = (l₁.length : ℤ) by ring] at h2
    rw [← h2, Int.emod_eq_of_lt (by positivity) (by omega)]
    exact Int.toNat_natCast _
  rw [hmod, List.rotate_eq_drop_append_take (by simp), List.drop_left, List.take_left]
  rw [List.dropLast_concat]
  rw [List.getLast_append]
  simp

theorem getD_map {α β : Type} (f : α → β) (l : List α) (i : ℕ) (hi : i < l.length)
    (d : β) (d0 : α) : (l.map f).getD i d = f (l.getD i d0) := by
  rw [List.getD_eq_getElem?_getD, List.getD_eq_getElem?_getD, List.getElem?_map,
    List.getElem?_eq_getElem hi]
  simp

theorem getD_mem_of_lt {α : Type} (l : List α) (i : ℕ) (hi : i < l.length) (d : α) :
    l.getD i d ∈ l := by
  rw [List.getD_eq_getElem?_getD, List.getElem?_eq_getElem hi]
  exact List.getElem_mem hi

theorem getD_dropLast {α : Type} (l : List α) (i : ℕ) (hi : i < l.dropLast.length) (d : α) :
    l.dropLast.getD i d = l.getD i d := by
  have hi' : i < l.length := by
    rw [List.length_dropLast] at hi; omega
  rw [List.getD_eq_getElem?_getD, List.getD_eq_getElem?_getD,
    List.getElem?_eq_getElem hi, List.getElem?_eq_getElem hi']
  rw [List.getElem_dropLast]

theorem pairwise_lt_getD {α : Type} [Preorder α] (l : List α)
    (hl : List.Pairwise (· < ·) l) (d : α) (i j : ℕ) (hij : i < j) (hj : j < l.length) :
    l.getD i d < l.getD j d := by
  have hi : i < l.length := lt_trans hij hj
  rw [List.getD_eq_getElem?_getD, List.getD_eq_getElem?_getD,
    List.getElem?_eq_getElem hi, List.getElem?_eq_getElem hj]
  exact (List.pairwise_iff_getElem.mp hl) i j hi hj hij

theorem pairwise_lt_getD_le {α : Type} [Preorder α] (l : List α)
    (hl : List.Pairwise (· < ·) l) (d : α) (i j : ℕ) (hij : i ≤ j) (hj : j < l.length) :
    l.getD i d ≤ l.getD j d := by
  rcases Nat.eq_or_lt_of_le hij with rfl | hlt
  · exact le_refl _
  · exact le_of_lt (pairwise_lt_getD l hl d i j hlt hj)

theorem pairwise_lt_getD_gap (l : List ℕ) (hl : List.Pairwise (· < ·) l) :
    ∀ (k i : ℕ), i + k < l.length → l.getD i 0 + k ≤ l.getD (i + k) 0 := by
  intro k
  induction k with
  | zero => intro i _; simp
  | succ m ih =>
    intro i h
    have h2 := ih i (by omega)
    have h3 : l.getD (i + m) 0 < l.getD (i + m + 1) 0 :=
      pairwise_lt_getD l hl 0 (i + m) (i + m + 1) (by omega) (by omega)
    have heq : i + (m + 1) = i + m + 1 := rfl
    rw [heq]
    omega

theorem lickOnsetIdx_sublist (t0 : List ℚ) :
    (lickOnsetIdx t0).Sublist (lickTonOnsetIdx t0) := by
  unfold lickOnsetIdx
  have h1 := List.filter_sublist
    (p := fun p : ℕ × ℕ => decide ((npDiffZ (lickTonOnsetIdx t0)).getD p.1 0 = 1))
    (((lickTonOnsetIdx t0).take ((lickTonOnsetIdx t0).length - 2)).enum)
  have h2 := h1.map Prod.snd
  rw [List.enum_map_snd] at h2
  exact h2.trans (List.take_sublist _ _)

theorem lickOnsetIdx_pairwise (t0 : List ℚ) : List.Pairwise (· < ·) (lickOnsetIdx t0) :=
  List.Pairwise.sublist (lickOnsetIdx_sublist t0) (argwhere_pairwise _)

theorem lickTonOnsetIdx_bound (t0 : List ℚ) :
    ∀ x ∈ lickTonOnsetIdx t0, x + 1 < t0.length := by
  intro x hx
  have h := ((argwhere_mem _ _).mp hx).1
  rw [List.length_map, lickIlf, List.length_map, npDiff_length] at h
  omega

theorem mem_lickOnsetIdx (t0 : List ℚ) (b : ℕ) :
    b ∈ lickOnsetIdx t0 ↔ ∃ i, i + 2 < (lickTonOnsetIdx t0).length ∧
      (lickTonOnsetIdx t0).getD i 0 = b ∧
      (npDiffZ (lickTonOnsetIdx t0)).getD i 0 = 1 := by
  unfold lickOnsetIdx
  constructor
  · intro hb
    rcases List.mem_map.mp hb with ⟨p, hp, hpb⟩
    rcases List.mem_filter.mp hp with ⟨hpe, hq⟩
    have hpe' := List.mem_enum_iff_getElem?.mp hpe
    have hlt : p.1 < ((lickTonOnsetIdx t0).take ((lickTonOnsetIdx t0).length - 2)).length := by
      by_contra hcon
      rw [List.getElem?_eq_none (by omega)] at hpe'
      exact Option.noConfusion hpe'
    have hlen : p.1 + 2 < (lickTonOnsetIdx t0).length := by
      rw [List.length_take] at hlt
      omega
    refine ⟨p.1, hlen, ?_, by simpa using hq⟩
    rw [List.getElem?_eq_getElem hlt, List.getElem_take] at hpe'
    have := Option.some.inj hpe'
    rw [List.getD_eq_getElem?_getD, List.getElem?_eq_getElem (by omega : p.1 < (lickTonOnsetIdx t0).length)]
    rw [Option.getD_some, this, hpb]
  · rintro ⟨i, hlen, hval, hdiff⟩
    apply List.mem_map.mpr
    refine ⟨(i, b), ?_, rfl⟩
    apply List.mem_filter.mpr
    have hlt : i < ((lickTonOnsetIdx t0).take ((lickTonOnsetIdx t0).length - 2)).length := by
      rw [List.length_take]
      omega
    constructor
    · apply List.mem_enum_iff_getElem?.mpr
      rw [List.getElem?_eq_getElem hlt, List.getElem_take]
      rw [List.getD_eq_getElem?_getD, List.getElem?_eq_getElem (by omega : i < (lickTonOnsetIdx t0).length)] at hval
      rw [Option.getD_some] at hval
      simpa using hval
    · simpa using hdiff

theorem lickOnsetIdx_bound (t0 : List ℚ) :
    ∀ x ∈ lickOnsetIdx t0, x + 1 < t0.length := fun x hx =>
  lickTonOnsetIdx_bound t0 x ((lickOnsetIdx_sublist t0).mem hx)

/-- Adjacent entries of `lick_onset_idx` differ by exactly 1 or by at least 3:
a gap of exactly 2 is impossible, because the middle surviving crossing would
itself satisfy the `next_lick == 1` condition and would have been kept. -/
theorem lickOnsetIdx_gap (t0 : List ℚ) (j : ℕ)
    (hj : j + 1 < (lickOnsetIdx t0).length) :
    (lickOnsetIdx t0).getD (j + 1) 0 = (lickOnsetIdx t0).getD j 0 + 1 ∨
    (lickOnsetIdx t0).getD j 0 + 3 ≤ (lickOnsetIdx t0).getD (j + 1) 0 := by
  have hLp := lickOnsetIdx_pairwise t0
  have hip := argwhere_pairwise
    ((lickIlf t0).map (fun x => decide (3 < x) && decide (x < 9)))
  have hidxp : List.Pairwise (· < ·) (lickTonOnsetIdx t0) := hip
  have hlt : (lickOnsetIdx t0).getD j 0 < (lickOnsetIdx t0).getD (j + 1) 0 :=
    pairwise_lt_getD _ hLp 0 j (j + 1) (by omega) hj
  by_contra hcon
  push_neg at hcon
  obtain ⟨hne1, hlt3⟩ := hcon
  have hgap2 : (lickOnsetIdx t0).getD (j + 1) 0 = (lickOnsetIdx t0).getD j 0 + 2 := by omega
  -- membership facts for the two adjacent entries
  have hmemj : (lickOnsetIdx t0).getD j 0 ∈ lickOnsetIdx t0 :=
    getD_mem_of_lt _ j (by omega) 0
  have hmemj1 : (lickOnsetIdx t0).getD (j + 1) 0 ∈ lickOnsetIdx t0 :=
    getD_mem_of_lt _ (j + 1) hj 0
  obtain ⟨p, hp2, hpv, hpd⟩ := (mem_lickOnsetIdx t0 _).mp hmemj
  obtain ⟨q, hq2, hqv, hqd⟩ := (mem_lickOnsetIdx t0 _).mp hmemj1
  set a := (lickOnsetIdx t0).getD j 0 with ha
  set idx := lickTonOnsetIdx t0 with hidxdef
  -- idx[p+1] = a + 1 and idx[q+1] = a + 3
  have hdp := npDiffZ_getD idx p (by omega)
  rw [hpd] at hdp
  have hp1v : idx.getD (p + 1) 0 = a + 1 := by
    rw [hpv] at hdp; omega
  have hdq := npDiffZ_getD idx q (by omega)
  rw [hqd] at hdq
  have hq1v : idx.getD (q + 1) 0 = a + 3 := by
    rw [hqv, hgap2] at hdq; omega
  -- p + 1 < q from the values a+1 < a+2
  have hpq : p + 1 < q := by
    by_contra hle
    push_neg at hle
    have := pairwise_lt_getD_le idx hidxp 0 q (p + 1) hle (by omega)
    rw [hp1v, hqv, hgap2] at this
    omega
  -- q ≤ p + 2 from the gap bound, hence q = p + 2
  have hqe : (p + 1) + (q - p - 1) = q := by omega
  have hgapb := pairwise_lt_getD_gap idx hidxp (q - p - 1) (p + 1) (by omega)
  rw [hqe] at hgapb
  rw [hp1v, hqv, hgap2] at hgapb
  have hq2e : q = p + 2 := by omega
  -- then idx[p+1] = a+1 is itself a member of lick_onset_idx
  have hmid : a + 1 ∈ lickOnsetIdx t0 := by
    apply (mem_lickOnsetIdx t0 _).mpr
    refine ⟨p + 1, by rw [← hidxdef]; omega, hp1v, ?_⟩
    have hdp1 := npDiffZ_getD idx (p + 1) (by omega)
    rw [hdp1, hp1v, show p + 1 + 1 = q by omega, hqv, hgap2]
    push_cast
    ring
  -- contradiction with adjacency of positions j and j+1
  obtain ⟨r, hr, hrv⟩ := List.mem_iff_getElem.mp hmid
  have hrd : (lickOnsetIdx t0).getD r 0 = a + 1 := by
    rw [List.getD_eq_getElem?_getD, List.getElem?_eq_getElem hr, Option.getD_some, hrv]
  have hjr : j < r := by
    by_contra hle
    push_neg at hle
    have := pairwise_lt_getD_le _ hLp 0 r j hle (by omega)
    rw [hrd, ha] at this
    omega
  have hrj1 : r < j + 1 := by
    by_contra hle
    push_neg at hle
    have := pairwise_lt_getD_le _ hLp 0 (j + 1) r hle hr
    rw [hrd, hgap2] at this
    omega
  omega

/-- Decomposition of the rolled onset condition: rolling `lick_onset_d` by one
moves its last entry to the front, so `lick_bout_onset` is `[0]` or `[]`
(according to the wrapped-around last gap) followed by the shifted internal
gap positions, while `lick_bout_offset` is the internal gap positions followed
by the last position when the last gap is `>= 2`. -/
theorem lickBout_raw_decomp (t0 : List ℚ)
    (hd : npDiffZ (lickOnsetIdx t0) ≠ []) :
    lickBoutOnRaw t0 =
      (if 2 ≤ (npDiffZ (lickOnsetIdx t0)).getLast hd then [0] else []) ++
        (argwhere (((npDiffZ (lickOnsetIdx t0)).dropLast).map
          (fun x => decide (2 ≤ x)))).map (· + 1) ∧
    lickBoutOffRaw t0 =
      argwhere (((npDiffZ (lickOnsetIdx t0)).dropLast).map (fun x => decide (2 ≤ x))) ++
        (if 2 ≤ (npDiffZ (lickOnsetIdx t0)).getLast hd then
          [(npDiffZ (lickOnsetIdx t0)).length - 1] else []) := by
  constructor
  · unfold lickBoutOnRaw
    rw [npRoll_one _ hd, List.map_cons, argwhere_cons]
    by_cases hb : 2 ≤ (npDiffZ (lickOnsetIdx t0)).getLast hd
    · rw [if_pos hb, if_pos (by simpa using hb)]
    · rw [if_neg hb, if_neg (by simpa using hb)]
  · unfold lickBoutOffRaw
    conv_lhs => rw [← List.dropLast_append_getLast hd]
    rw [List.map_append, argwhere_append, List.map_cons, List.map_nil]
    congr 1
    rw [argwhere_cons]
    by_cases hb : 2 ≤ (npDiffZ (lickOnsetIdx t0)).getLast hd
    · rw [if_pos hb, if_pos (by simpa using hb)]
      simp [argwhere, npDiffZ_length]
    · rw [if_neg hb, if_neg (by simpa using hb)]
      simp [argwhere]

/-- Core of the bout-chain argument: once the onset list has the unified shape
`0 :: (G+1)` and the offset list the shape `G ++ [e]` (with `G` the internal
gap positions and `e` beyond every entry of `G`), the emitted times are
strictly interleaved. -/
theorem lickBout_core (t0 : List ℚ) (hmono : List.Pairwise (· < ·) t0)
    (G : List ℕ) (e : ℕ) (ons offs : List ℚ)
    (hG : G = argwhere (((npDiffZ (lickOnsetIdx t0)).dropLast).map (fun x => decide (2 ≤ x))))
    (he1 : ∀ g ∈ G, g < e)
    (he2 : e < (lickOnsetIdx t0).length)
    (hon : ons = ((0 :: G.map (· + 1)).map (fun b => (lickOnsetIdx t0).getD b 0)).map
        (fun k => t0.dropLast.getD k 0))
    (hoff : offs = ((G ++ [e]).map (fun b => (lickOnsetIdx t0).getD b 0 + 2)).map
        (fun k => t0.dropLast.getD k 0))
    (hgOn : ∀ b ∈ 0 :: G.map (· + 1), (lickOnsetIdx t0).getD b 0 < t0.dropLast.length)
    (hgOff : ∀ b ∈ G ++ [e], (lickOnsetIdx t0).getD b 0 + 2 < t0.dropLast.length) :
    ons.length = offs.length ∧
    (∀ i, i < ons.length → ons.getD i 0 < offs.getD i 0) ∧
    (∀ i, i + 1 < ons.length → offs.getD i 0 < ons.getD (i + 1) 0) ∧
    ons.getD 0 0 = t0.dropLast.getD ((lickOnsetIdx t0).getD 0 0) 0 ∧
    offs.getD (offs.length - 1) 0 = t0.dropLast.getD ((lickOnsetIdx t0).getD e 0 + 2) 0 := by
  set T := t0.dropLast with hT
  set L := lickOnsetIdx t0 with hLdef
  have hTp : List.Pairwise (· < ·) T := List.Pairwise.sublist (List.dropLast_sublist t0) hmono
  have hLp : List.Pairwise (· < ·) L := lickOnsetIdx_pairwise t0
  have hGp : List.Pairwise (· < ·) G := hG ▸ argwhere_pairwise _
  have hGbound : ∀ g ∈ G, g + 2 < L.length := by
    intro g hg
    rw [hG] at hg
    have h := ((argwhere_mem _ _).mp hg).1
    rw [List.length_map, List.length_dropLast, npDiffZ_length] at h
    omega
  have hjump : ∀ g ∈ G, L.getD g 0 + 2 < L.getD (g + 1) 0 := by
    intro g hg
    have hgb := hGbound g hg
    rw [hG] at hg
    obtain ⟨hlt, hcond⟩ := (argwhere_mem _ _).mp hg
    rw [List.length_map] at hlt
    rw [getD_map _ _ _ hlt false 0, decide_eq_true_eq, getD_dropLast _ _ hlt] at hcond
    have hdg := npDiffZ_getD L g (by omega)
    rw [hdg] at hcond
    have hgap := lickOnsetIdx_gap t0 g (by rw [← hLdef]; omega)
    rw [← hLdef] at hgap
    rcases hgap with h1 | h3
    · rw [h1] at hcond; omega
    · omega
  have hon' : ons = T.getD (L.getD 0 0) 0 :: G.map (fun g => T.getD (L.getD (g + 1) 0) 0) := by
    rw [hon]
    simp [List.map_map, Function.comp_def]
  have hoff' : offs =
      G.map (fun g => T.getD (L.getD g 0 + 2) 0) ++ [T.getD (L.getD e 0 + 2) 0] := by
    rw [hoff]
    simp [List.map_map, Function.comp_def]
  have hlon : ons.length = G.length + 1 := by rw [hon']; simp
  have hloff : offs.length = G.length + 1 := by rw [hoff']; simp
  have honD0 : ons.getD 0 0 = T.getD (L.getD 0 0) 0 := by rw [hon']; rfl
  have honDs : ∀ i, i < G.length →
      ons.getD (i + 1) 0 = T.getD (L.getD (G.getD i 0 + 1) 0) 0 := by
    intro i hi
    rw [hon', List.getD_cons_succ, getD_map _ _ _ hi _ 0]
  have hoffDl : ∀ i, i < G.length →
      offs.getD i 0 = T.getD (L.getD (G.getD i 0) 0 + 2) 0 := by
    intro i hi
    rw [hoff', List.getD_append _ _ _ i (by simpa using hi), getD_map _ _ _ hi _ 0]
  have hoffDr : offs.getD G.length 0 = T.getD (L.getD e 0 + 2) 0 := by
    rw [hoff', List.getD_append_right _ _ _ _ (by simp)]
    simp
  have hcmem : ∀ i, i < G.length + 1 → (G ++ [e]).getD i 0 ∈ G ++ [e] := fun i hi =>
    getD_mem_of_lt _ i (by simp; omega) 0
  have hcbound : ∀ c ∈ G ++ [e], c < L.length := by
    intro c hc
    rcases List.mem_append.mp hc with h | h
    · have := hGbound c h; omega
    · rw [List.mem_singleton] at h
      exact h ▸ he2
  have hTlt : ∀ m n, m < n → n < T.length → T.getD m 0 < T.getD n 0 := fun m n h1 h2 =>
    pairwise_lt_getD T hTp 0 m n h1 h2
  have hbc : ∀ i, i < G.length → G.getD i 0 < (G ++ [e]).getD (i + 1) 0 := by
    intro i hi
    rcases Nat.lt_or_ge (i + 1) G.length with h | h
    · rw [List.getD_append _ _ _ _ h]
      exact pairwise_lt_getD G hGp 0 i (i + 1) (by omega) h
    · have hieq : i + 1 = G.length := by omega
      rw [hieq, List.getD_append_right _ _ _ _ (le_refl _)]
      simpa using he1 _ (getD_mem_of_lt G i hi 0)
  have hoffD : ∀ i, i < G.length + 1 →
      offs.getD i 0 = T.getD (L.getD ((G ++ [e]).getD i 0) 0 + 2) 0 := by
    intro i hi
    rcases Nat.lt_or_ge i G.length with h | h
    · rw [hoffDl i h, List.getD_append _ _ _ _ h]
    · have hieq : i = G.length := by omega
      subst hieq
      rw [hoffDr, List.getD_append_right _ _ _ _ (le_refl _)]
      simp
  have hb : ∀ i, i < ons.length → ons.getD i 0 < offs.getD i 0 := by
    intro i hi
    rw [hlon] at hi
    cases i with
    | zero =>
      rw [honD0, hoffD 0 (by omega)]
      apply hTlt
      · have h1 : L.getD 0 0 ≤ L.getD ((G ++ [e]).getD 0 0) 0 :=
          pairwise_lt_getD_le L hLp 0 0 _ (Nat.zero_le _) (hcbound _ (hcmem 0 (by omega)))
        omega
      · exact hgOff _ (hcmem 0 (by omega))
    | succ i =>
      have hiG : i < G.length := by omega
      rw [honDs i hiG, hoffD (i + 1) hi]
      apply hTlt
      · have hbci := hbc i hiG
        have h1 : L.getD (G.getD i 0 + 1) 0 ≤ L.getD ((G ++ [e]).getD (i + 1) 0) 0 :=
          pairwise_lt_getD_le L hLp 0 _ _ (by omega) (hcbound _ (hcmem (i + 1) hi))
        omega
      · exact hgOff _ (hcmem (i + 1) hi)
  have hcc : ∀ i, i + 1 < ons.length → offs.getD i 0 < ons.getD (i + 1) 0 := by
    intro i hi
    rw [hlon] at hi
    have hiG : i < G.length := by omega
    rw [hoffDl i hiG, honDs i hiG]
    have hgm : G.getD i 0 ∈ G := getD_mem_of_lt G i hiG 0
    have hj := hjump _ hgm
    refine hTlt _ _ (by omega) ?_
    exact hgOn _ (List.mem_cons_of_mem _ (List.mem_map_of_mem (· + 1) hgm))
  refine ⟨by rw [hlon, hloff], hb, hcc, honD0, ?_⟩
  rw [hloff]
  simpa using hoffDr

/-- **C7** (amended).  The bout detector of `MovementTiming.make` (lines
1626-1648) is a pure function of the crossing-time list, hence deterministic;
but it does **not** produce output on every input: `lick_bout_onset[0]` raises
an unhandled `IndexError` whenever no gap `>= 2` exists (e.g. a single
uninterrupted lick run, see `movementTiming_bout_detector_crash`).  On every
input on which it completes (`= some`), the onset and offset arrays have equal
length, the times strictly interleave (`onset[i] < offset[i] < onset[i+1]`),
the first bout always starts at the first surviving onset (index `0` is forced
in whenever `lick_bout_onset[0] != 0`), and in exactly that corrected case the
final bout's end is the appended last index `len(lick_onset_idx)-1` (offset
time `ton_onset[lick_onset_idx[-1]+2]`). -/
theorem movementTiming_bout_detector (t0 : List ℚ) (hmono : List.Pairwise (· < ·) t0)
    (ons offs : List ℚ) (h : lickBoutDetect t0 = some (ons, offs)) :
    ons.length = offs.length ∧
    (∀ i, i < ons.length → ons.getD i 0 < offs.getD i 0) ∧
    (∀ i, i + 1 < ons.length → offs.getD i 0 < ons.getD (i + 1) 0) ∧
    ons.getD 0 0 = t0.dropLast.getD ((lickOnsetIdx t0).getD 0 0) 0 ∧
    ((lickBoutOnRaw t0).headD 0 ≠ 0 →
      offs.getD (offs.length - 1) 0 =
        t0.dropLast.getD ((lickOnsetIdx t0).getD ((lickOnsetIdx t0).length - 1) 0 + 2) 0) := by
  have hA0 : lickBoutOnRaw t0 ≠ [] := by
    intro he
    simp only [lickBoutDetect] at h
    rw [if_pos he] at h
    exact Option.noConfusion h
  have hd : npDiffZ (lickOnsetIdx t0) ≠ [] := by
    intro hdnil
    apply hA0
    simp [lickBoutOnRaw, hdnil, npRoll, argwhere]
  have hL2 : 2 ≤ (lickOnsetIdx t0).length := by
    have h1 := npDiffZ_length (lickOnsetIdx t0)
    have h2 : (npDiffZ (lickOnsetIdx t0)).length ≠ 0 := by
      simpa [List.length_eq_zero] using hd
    omega
  obtain ⟨hAdec, hBdec⟩ := lickBout_raw_decomp t0 hd
  set G := argwhere (((npDiffZ (lickOnsetIdx t0)).dropLast).map (fun x => decide (2 ≤ x)))
    with hGdef
  simp only [lickBoutDetect] at h
  rw [if_neg hA0] at h
  by_cases hc : (lickBoutOnRaw t0).headD 0 ≠ 0
  · -- `lick_bout_onset[0] != 0`: index 0 is prepended, last index appended
    rw [if_pos hc, if_pos hc] at h
    have hb2 : ¬ 2 ≤ (npDiffZ (lickOnsetIdx t0)).getLast hd := by
      intro hb
      rw [if_pos hb, List.singleton_append] at hAdec
      rw [hAdec] at hc
      simp at hc
    rw [if_neg hb2, List.nil_append] at hAdec
    rw [if_neg hb2, List.append_nil] at hBdec
    split at h
    next hguard =>
      rw [Option.some.injEq, Prod.mk.injEq] at h
      obtain ⟨honv, hoffv⟩ := h
      have hgall := List.all_eq_true.mp hguard
      have he1 : ∀ g ∈ G, g < (lickOnsetIdx t0).length - 1 := by
        intro g hg
        rw [hGdef] at hg
        have hgb := ((argwhere_mem _ _).mp hg).1
        rw [List.length_map, List.length_dropLast, npDiffZ_length] at hgb
        omega
      have he2 : (lickOnsetIdx t0).length - 1 < (lickOnsetIdx t0).length := by omega
      have hgOn : ∀ b ∈ 0 :: G.map (· + 1),
          (lickOnsetIdx t0).getD b 0 < t0.dropLast.length := by
        intro b hb
        have hmem : (lickOnsetIdx t0).getD b 0 ∈
            (0 :: lickBoutOnRaw t0).map (fun b => (lickOnsetIdx t0).getD b 0) := by
          rw [hAdec]
          exact List.mem_map_of_mem _ hb
        have := hgall _ (List.mem_append_left _ hmem)
        simpa using this
      have hgOff : ∀ b ∈ G ++ [(lickOnsetIdx t0).length - 1],
          (lickOnsetIdx t0).getD b 0 + 2 < t0.dropLast.length := by
        intro b hb
        have hmem : (lickOnsetIdx t0).getD b 0 + 2 ∈
            (lickBoutOffRaw t0 ++ [(lickOnsetIdx t0).length - 1]).map
              (fun b => (lickOnsetIdx t0).getD b 0 + 2) := by
          rw [hBdec]
          exact List.mem_map_of_mem _ hb
        have := hgall _ (List.mem_append_right _ hmem)
        simpa using this
      obtain ⟨c1, c2, c3, c4, c5⟩ := lickBout_core t0 hmono G
        ((lickOnsetIdx t0).length - 1) ons offs hGdef he1 he2
        (by rw [← honv, hAdec]) (by rw [← hoffv, hBdec]) hgOn hgOff
      exact ⟨c1, c2, c3, c4, fun _ => c5⟩
    next => exact absurd h (by simp)
  · -- `lick_bout_onset[0] == 0`: no boundary correction is applied
    rw [if_neg hc, if_neg hc] at h
    have hc0 : (lickBoutOnRaw t0).headD 0 = 0 := not_ne_iff.mp hc
    have hb2 : 2 ≤ (npDiffZ (lickOnsetIdx t0)).getLast hd := by
      by_contra hb
      rw [if_neg hb, List.nil_append] at hAdec
      rcases hG : G with _ | ⟨g, G'⟩
      · rw [hG] at hAdec
        exact hA0 (by rw [hAdec]; rfl)
      · rw [hG] at hAdec
        rw [hAdec] at hc0
        simp at hc0
    rw [if_pos hb2, List.singleton_append] at hAdec
    rw [if_pos hb2] at hBdec
    split at h
    next hguard =>
      rw [Option.some.injEq, Prod.mk.injEq] at h
      obtain ⟨honv, hoffv⟩ := h
      have hgall := List.all_eq_true.mp hguard
      have he1 : ∀ g ∈ G, g < (npDiffZ (lickOnsetIdx t0)).length - 1 := by
        intro g hg
        rw [hGdef] at hg
        have hgb := ((argwhere_mem _ _).mp hg).1
        rwa [List.length_map, List.length_dropLast] at hgb
      have he2 : (npDiffZ (lickOnsetIdx t0)).length - 1 < (lickOnsetIdx t0).length := by
        have h1 := npDiffZ_length (lickOnsetIdx t0)
        omega
      have hgOn : ∀ b ∈ 0 :: G.map (· + 1),
          (lickOnsetIdx t0).getD b 0 < t0.dropLast.length := by
        intro b hb
        have hmem : (lickOnsetIdx t0).getD b 0 ∈
            (lickBoutOnRaw t0).map (fun b => (lickOnsetIdx t0).getD b 0) := by
          rw [hAdec]
          exact List.mem_map_of_mem _ hb
        have := hgall _ (List.mem_append_left _ hmem)
        simpa using this
      have hgOff : ∀ b ∈ G ++ [(npDiffZ (lickOnsetIdx t0)).length - 1],
          (lickOnsetIdx t0).getD b 0 + 2 < t0.dropLast.length := by
        intro b hb
        have hmem : (lickOnsetIdx t0).getD b 0 + 2 ∈
            (lickBoutOffRaw t0).map (fun b => (lickOnsetIdx t0).getD b 0 + 2) := by
          rw [hBdec]
          exact List.mem_map_of_mem _ hb
        have := hgall _ (List.mem_append_right _ hmem)
        simpa using this
      obtain ⟨c1, c2, c3, c4, _⟩ := lickBout_core t0 hmono G
        ((npDiffZ (lickOnsetIdx t0)).length - 1) ons offs hGdef he1 he2
        (by rw [← honv, hAdec]) (by rw [← hoffv, hBdec]) hgOn hgOff
      exact ⟨c1, c2, c3, c4, fun hne => absurd hc0 hne⟩
    next => exact absurd h (by simp)

/-- **C7** counterexample to the unconditional "for every input trace" claim:
a strictly increasing crossing-time list forming one uninterrupted lick run
(all inter-crossing intervals 1/4 s, lick frequency 4 Hz in the (3, 9) band)
leaves `lick_bout_onset = np.argwhere(np.roll(np.diff(lick_onset_idx),1)>=2)`
empty, so line 1643 `lick_bout_onset[0]` raises an `IndexError` and no onset
and offset arrays are produced at all. -/
theorem movementTiming_bout_detector_crash :
    List.Pairwise (· < ·) ([0, 1/4, 1/2, 3/4, 1, 5/4] : List ℚ) ∧
    lickBoutDetect [0, 1/4, 1/2, 3/4, 1, 5/4] = none := by
  constructor
  · norm_num [List.pairwise_cons]
  · have h1 : lickIlf [0, 1/4, 1/2, 3/4, 1, 5/4] = [4, 4, 4, 4, 4] := by
      norm_num [lickIlf, npDiff]
    have h2 : lickTonOnsetIdx [0, 1/4, 1/2, 3/4, 1, 5/4] = [0, 1, 2, 3, 4] := by
      unfold lickTonOnsetIdx
      rw [h1]
      decide
    have h3 : lickOnsetIdx [0, 1/4, 1/2, 3/4, 1, 5/4] = [0, 1, 2] := by
      unfold lickOnsetIdx
      rw [h2]
      decide
    have h4 : lickBoutOnRaw [0, 1/4, 1/2, 3/4, 1, 5/4] = [] := by
      unfold lickBoutOnRaw
      rw [h3]
      decide
    simp only [lickBoutDetect]
    rw [h4]
    rfl

/-- A crossing-time list with two lick runs (intervals 1/4 s, frequency 4 Hz)
separated by three 1 s intervals (1 Hz, outside the (3, 9) band). -/
def licksExample : List ℚ := [0, 1/4, 1/2, 3/4, 1, 2, 3, 4, 17/4, 9/2, 19/4, 5]

theorem licksExample_mono : List.Pairwise (· < ·) licksExample := by
  norm_num [licksExample, List.pairwise_cons]

theorem licksExample_ilf :
    lickIlf licksExample = [4, 4, 4, 4, 1, 1, 1, 4, 4, 4, 4] := by
  norm_num [licksExample, lickIlf, npDiff]

theorem licksExample_idx :
    lickTonOnsetIdx licksExample = [0, 1, 2, 3, 7, 8, 9, 10] := by
  unfold lickTonOnsetIdx
  rw [licksExample_ilf]
  decide

theorem licksExample_onsetIdx : lickOnsetIdx licksExample = [0, 1, 2, 7, 8] := by
  unfold lickOnsetIdx
  rw [licksExample_idx]
  decide

theorem licksExample_boutOn : lickBoutOnRaw licksExample = [3] := by
  unfold lickBoutOnRaw
  rw [licksExample_onsetIdx]
  decide

theorem licksExample_boutOff : lickBoutOffRaw licksExample = [2] := by
  unfold lickBoutOffRaw
  rw [licksExample_onsetIdx]
  decide

theorem licksExample_eval :
    lickBoutDetect licksExample = some ([0, 4], [1, 19/4]) := by
  simp only [lickBoutDetect]
  rw [licksExample_boutOn, licksExample_boutOff, licksExample_onsetIdx]
  rfl

/-- **C7** witness: on the two-run example the detector completes, the
boundary correction fires (`lick_bout_onset[0] = 3 != 0`), and the two
returned bouts `[0, 4]`/`[1, 19/4]` satisfy every conjunct of the amended
theorem. -/
theorem movementTiming_bout_detector_witness :
    List.Pairwise (· < ·) licksExample ∧
    lickBoutDetect licksExample = some ([0, 4], [1, 19/4]) ∧
    (([0, 4] : List ℚ).length = ([1, 19/4] : List ℚ).length ∧
      (∀ i, i < ([0, 4] : List ℚ).length →
        ([0, 4] : List ℚ).getD i 0 < ([1, 19/4] : List ℚ).getD i 0) ∧
      (∀ i, i + 1 < ([0, 4] : List ℚ).length →
        ([1, 19/4] : List ℚ).getD i 0 < ([0, 4] : List ℚ).getD (i + 1) 0) ∧
      ([0, 4] : List ℚ).getD 0 0 =
        licksExample.dropLast.getD ((lickOnsetIdx licksExample).getD 0 0) 0 ∧
      ((lickBoutOnRaw licksExample).headD 0 ≠ 0 →
        ([1, 19/4] : List ℚ).getD (([1, 19/4] : List ℚ).length - 1) 0 =
          licksExample.dropLast.getD
            ((lickOnsetIdx licksExample).getD ((lickOnsetIdx licksExample).length - 1) 0 + 2)
            0)) :=
  ⟨licksExample_mono, licksExample_eval,
    movementTiming_bout_detector licksExample licksExample_mono [0, 4] [1, 19/4]
      licksExample_eval⟩
